import Mathlib

/-!
# Verification of the Gin Rummy engine (`engine/card.py`, `engine/rules.py`, `engine/game.py`)

A shallow embedding of the rummybots engine sources in Lean 4, together with
theorems settling the specification claims about meld search, scoring,
layoffs and the game state machine.

Conventions of the embedding:
* Python `int` values are `Nat` (all card point values are nonnegative) or
  `Int` where scores may be negative.
* Python lists are Lean `List`s in the same element order.  `list.pop()`
  (removal at the end) is modelled with `getLast?`/`dropLast`,
  `list.append` with `++ [x]`, `list.remove` with `List.erase`
  (both remove/erase drop the first matching occurrence).
* Python `set(...)` sizes are modelled with `List.dedup.length`, set
  membership with list membership (`List.contains`).
* Functions that raise are modelled with `Except`; where a claim concerns
  the state left behind at a raise, the error value carries the state as
  it is at the moment of the raise.
-/

deriving instance DecidableEq for Except

namespace RummyBots

/-! ## engine/card.py : Suit, Rank, Card -/

/-- `Suit` enum of `engine/card.py`.  The Python enum values are the strings
"C", "D", "H", "S"; `Suit.val` gives their (alphabetical) order, which is the
string order used by `Card.__lt__` / the sort key in `find_best_melds`. -/
inductive Suit
  | clubs
  | diamonds
  | hearts
  | spades
deriving DecidableEq, Repr, Fintype

/-- Numeric stand-in for the suit's one-character string value; the order
matches the lexicographic order of "C" < "D" < "H" < "S". -/
def Suit.val : Suit → Nat
  | .clubs => 0
  | .diamonds => 1
  | .hearts => 2
  | .spades => 3

/-- `Rank` enum of `engine/card.py` (ACE = 1 .. KING = 13). -/
inductive Rank
  | ace | two | three | four | five | six | seven
  | eight | nine | ten | jack | queen | king
deriving DecidableEq, Repr, Fintype

/-- The numeric `value` of the `Rank` enum member. -/
def Rank.value : Rank → Nat
  | .ace => 1 | .two => 2 | .three => 3 | .four => 4 | .five => 5
  | .six => 6 | .seven => 7 | .eight => 8 | .nine => 9 | .ten => 10
  | .jack => 11 | .queen => 12 | .king => 13

/-- `Card`: a rank and a suit, equality and hashing by the pair. -/
structure Card where
  rank : Rank
  suit : Suit
deriving DecidableEq, Repr

/-- `Card.deadwood_value`: `min(self.rank.value, 10)`. -/
def Card.deadwood_value (c : Card) : Nat := min c.rank.value 10

/-- Iteration order of the `Rank` enum. -/
def all_ranks : List Rank :=
  [.ace, .two, .three, .four, .five, .six, .seven,
   .eight, .nine, .ten, .jack, .queen, .king]

/-- Iteration order of the `Suit` enum. -/
def all_suits : List Suit := [.clubs, .diamonds, .hearts, .spades]

/-- The 52-card universe in the construction order of `Deck.__init__`:
`[Card(rank, suit) for suit in Suit for rank in Rank]`. -/
def full_deck : List Card :=
  all_suits.flatMap (fun s => all_ranks.map (fun r => ⟨r, s⟩))

/-! ## engine/rules.py : meld predicates -/

/-- `is_valid_set`: 3-4 cards, one rank, all-distinct suits
(`len({suits}) == len(cards)`). -/
def is_valid_set (cards : List Card) : Bool :=
  if cards.length = 3 ∨ cards.length = 4 then
    ((cards.map Card.rank).dedup.length == 1) &&
      ((cards.map Card.suit).dedup.length == cards.length)
  else false

/-- The consecutiveness check of `is_valid_run` / `find_runs`:
`all(values[i] == values[i-1] + 1 for i in range(1, len(values)))`. -/
def is_consecutive : List Nat → Bool
  | [] => true
  | [_] => true
  | a :: b :: rest => (b == a + 1) && is_consecutive (b :: rest)

/-- `is_valid_run`: at least 3 cards, one suit, sorted rank values
consecutive. -/
def is_valid_run (cards : List Card) : Bool :=
  if cards.length < 3 then false
  else if (cards.map Card.suit).dedup.length ≠ 1 then false
  else is_consecutive
    (List.insertionSort (· ≤ ·) (cards.map (fun c => c.rank.value)))

/-- `is_valid_meld`: a set or a run. -/
def is_valid_meld (cards : List Card) : Bool :=
  is_valid_set cards || is_valid_run cards

/-! ## engine/rules.py : meld enumeration -/

/-- The rank group `by_rank[r]` built by the `defaultdict` append loop of
`find_sets`: the cards of the hand with rank `r`, in hand order. -/
def rank_group (hand : List Card) (r : Rank) : List Card :=
  hand.filter (fun c => c.rank == r)

/-- `find_sets`: for each rank group of at least 3 cards emit every 3-card
combination, plus the whole group when it has 4 cards.  Iterating over
`all_ranks` instead of over first-occurrence key order changes only the
order of the output list, not its elements. -/
def find_sets (hand : List Card) : List (List Card) :=
  all_ranks.flatMap fun r =>
    if 3 ≤ (rank_group hand r).length then
      (List.sublistsLen 3 (rank_group hand r)) ++
        (if (rank_group hand r).length = 4 then [rank_group hand r] else [])
    else []

/-- The card order used by `sorted(cards, key=lambda c: c.rank.value)`. -/
def value_le (a b : Card) : Prop := a.rank.value ≤ b.rank.value

instance : DecidableRel value_le := fun a b =>
  inferInstanceAs (Decidable (a.rank.value ≤ b.rank.value))

instance : IsTotal Card value_le :=
  ⟨fun a b => Nat.le_total a.rank.value b.rank.value⟩

instance : IsTrans Card value_le :=
  ⟨fun _ _ _ h1 h2 => Nat.le_trans h1 h2⟩

/-- The suit group `by_suit[s]` built by the `defaultdict` append loop of
`find_runs`: the cards of the hand with suit `s`, in hand order. -/
def suit_group (hand : List Card) (s : Suit) : List Card :=
  hand.filter (fun c => c.suit == s)

/-- `sorted_cards = sorted(cards, key=lambda c: c.rank.value)`. -/
def sorted_suit_group (hand : List Card) (s : Suit) : List Card :=
  List.insertionSort value_le (suit_group hand s)

/-- The inner double loop of `find_runs` for one already-sorted suit group:
for every `start` and every `end ∈ range(start+3, len+1)` take the window
`sorted_cards[start:end]` and keep it when its rank values are consecutive. -/
def find_runs_of_suit (sc : List Card) : List (List Card) :=
  (List.range sc.length).flatMap fun start =>
    (List.range' (start + 3) (sc.length + 1 - (start + 3))).filterMap fun e =>
      if is_consecutive (((sc.drop start).take (e - start)).map
          (fun c => c.rank.value))
      then some ((sc.drop start).take (e - start))
      else none

/-- `find_runs`: group by suit (groups keep hand order), sort each group by
rank value, emit every consecutive window of length at least 3. -/
def find_runs (hand : List Card) : List (List Card) :=
  all_suits.flatMap fun s =>
    find_runs_of_suit (sorted_suit_group hand s)

/-- `find_all_melds`: all sets then all runs. -/
def find_all_melds (hand : List Card) : List (List Card) :=
  find_sets hand ++ find_runs hand

/-! ## engine/rules.py : best-meld search -/

/-- Sum of deadwood values of a list of cards. -/
def dw_sum (l : List Card) : Nat := (l.map Card.deadwood_value).sum

/-- Cards covered by a list of melds (`melded_cards.update(meld)`). -/
def meld_cards (melds : List (List Card)) : List Card := melds.flatten

/-- The body of `_find_best_melds_recursive`.  The Python function, entered
at a node, first updates the shared best (`current_dw < best_deadwood[0]`,
with `current_dw` summed over `set(remaining)`), then loops over the meld
candidates from `start_idx` on, recursing into each candidate that is a
subset of the remaining cards.  Here the loop over the suffix of candidates
is the structural recursion, and a child node's entry-update is performed at
its call site (`b1`); the root node's entry-update is performed by
`find_best_melds_cached` before entering the loop. -/
def fbm_loop :
    List Card → List (List Card) → List (List Card) →
    List (List Card) × Nat → List (List Card) × Nat
  | _, [], _, best => best
  | remaining, meld :: rest, current, best =>
    let best' :=
      if meld.all (fun c => remaining.contains c) then
        let new_remaining := remaining.filter (fun c => !(meld.contains c))
        let dw := dw_sum new_remaining.dedup
        let b1 := if dw < best.2 then (current ++ [meld], dw) else best
        fbm_loop new_remaining rest (current ++ [meld]) b1
      else best
    fbm_loop remaining rest current best'

/-- `_find_best_melds_cached` (the `lru_cache` is semantically the identity
and is not modelled): enumerate candidates, run the recursive search seeded
with the empty partition and the whole-hand deadwood, and split the hand
into melded and unmelded cards. -/
def find_best_melds_cached (hand : List Card) : List (List Card) × List Card :=
  let melds := find_all_melds hand
  if melds.isEmpty then ([], hand)
  else
    let init : List (List Card) × Nat := ([], dw_sum hand)
    let dw0 := dw_sum hand.dedup
    let best0 := if dw0 < init.2 then (([] : List (List Card)), dw0) else init
    let best := fbm_loop hand melds [] best0
    let melded := meld_cards best.1
    (best.1, hand.filter (fun c => !(melded.contains c)))

/-- The sort key of `find_best_melds`: `(c.suit.value, c.rank.value)`
lexicographically (suit values are one-character strings ordered
alphabetically). -/
def card_key_le (a b : Card) : Prop :=
  a.suit.val < b.suit.val ∨ (a.suit.val = b.suit.val ∧ a.rank.value ≤ b.rank.value)

instance : DecidableRel card_key_le := fun a b =>
  inferInstanceAs (Decidable (_ ∨ _))

instance : IsTotal Card card_key_le := by
  constructor
  intro a b
  rcases Nat.lt_trichotomy a.suit.val b.suit.val with h | h | h
  · exact Or.inl (Or.inl h)
  · rcases Nat.le_total a.rank.value b.rank.value with h2 | h2
    · exact Or.inl (Or.inr ⟨h, h2⟩)
    · exact Or.inr (Or.inr ⟨h.symm, h2⟩)
  · exact Or.inr (Or.inl h)

instance : IsTrans Card card_key_le := by
  constructor
  rintro a b c (h1 | ⟨h1, h1'⟩) (h2 | ⟨h2, h2'⟩)
  · exact Or.inl (Nat.lt_trans h1 h2)
  · exact Or.inl (h2 ▸ h1)
  · exact Or.inl (h1 ▸ h2)
  · exact Or.inr ⟨h1.trans h2, h1'.trans h2'⟩

/-- `tuple(sorted(hand, key=lambda c: (c.suit.value, c.rank.value)))`. -/
def sort_hand (hand : List Card) : List Card :=
  List.insertionSort card_key_le hand

/-- `find_best_melds`: empty hand short-circuit, canonical sort, search. -/
def find_best_melds (hand : List Card) : List (List Card) × List Card :=
  if hand.isEmpty then ([], [])
  else find_best_melds_cached (sort_hand hand)

/-! ## engine/rules.py : scoring -/

/-- `calculate_deadwood`: deadwood sum of the optimal arrangement's
unmelded cards. -/
def calculate_deadwood (hand : List Card) : Nat :=
  dw_sum (find_best_melds hand).2

/-- `is_gin`: zero deadwood. -/
def is_gin (hand : List Card) : Bool :=
  calculate_deadwood hand == 0

/-- `can_knock`: deadwood at most 10. -/
def can_knock (hand : List Card) : Bool :=
  decide (calculate_deadwood hand ≤ 10)

-- Sanity examples from the spec (§8): the literal scenarios.
example :
    calculate_deadwood
      [⟨.five, .hearts⟩, ⟨.five, .diamonds⟩, ⟨.five, .clubs⟩,
       ⟨.king, .spades⟩] = 10 := by decide

example :
    calculate_deadwood
      [⟨.ace, .hearts⟩, ⟨.ace, .diamonds⟩, ⟨.ace, .clubs⟩,
       ⟨.five, .hearts⟩, ⟨.five, .diamonds⟩, ⟨.five, .clubs⟩,
       ⟨.eight, .spades⟩, ⟨.nine, .spades⟩, ⟨.ten, .spades⟩,
       ⟨.jack, .spades⟩] = 0 := by decide

/-! ## Basic lemmas about the card model -/

theorem Rank.value_inj : ∀ r r' : Rank, r.value = r'.value → r = r' := by decide

theorem Card.eq_of_parts {a b : Card} (h1 : a.rank = b.rank) (h2 : a.suit = b.suit) :
    a = b := by
  cases a; cases b; cases h1; cases h2; rfl

theorem dw_sum_perm {l l' : List Card} (h : l.Perm l') : dw_sum l = dw_sum l' :=
  (h.map Card.deadwood_value).sum_eq

theorem nodup_of_dedup_length {α : Type} [DecidableEq α] {l : List α}
    (h : l.dedup.length = l.length) : l.Nodup := by
  have := (List.dedup_sublist l).eq_of_length h
  exact List.dedup_eq_self.mp this

theorem dedup_length_of_nodup {α : Type} [DecidableEq α] {l : List α}
    (h : l.Nodup) : l.dedup.length = l.length := by
  rw [List.dedup_eq_self.mpr h]

theorem all_eq_of_dedup_length_one {α : Type} [DecidableEq α] {l : List α}
    (h : l.dedup.length = 1) : ∃ a, ∀ x ∈ l, x = a := by
  match hd : l.dedup with
  | [] => rw [hd] at h; simp at h
  | [a] =>
    refine ⟨a, fun x hx => ?_⟩
    have := (List.mem_dedup).mpr hx
    rw [hd] at this
    simpa using this
  | a :: b :: t => rw [hd] at h; simp at h

theorem dedup_eq_singleton_of_all_eq {α : Type} [DecidableEq α] {a : α} :
    ∀ (l : List α), l ≠ [] → (∀ x ∈ l, x = a) → l.dedup = [a] := by
  intro l
  induction l with
  | nil => intro h; exact absurd rfl h
  | cons x t ih =>
    intro _ hall
    have hx : x = a := hall x (by simp)
    subst hx
    rcases eq_or_ne t [] with ht | ht
    · subst ht; simp
    · have hta := ih ht (fun z hz => hall z (by simp [hz]))
      obtain ⟨y, hy⟩ := List.exists_mem_of_ne_nil t ht
      have hyx : y = x := hall y (List.mem_cons_of_mem _ hy)
      have hmem : x ∈ t := hyx ▸ hy
      rw [List.dedup_cons_of_mem hmem, hta]

theorem all_ranks_mem : ∀ r : Rank, r ∈ all_ranks := by decide

theorem all_suits_mem : ∀ s : Suit, s ∈ all_suits := by decide

theorem suit_card_eq : Fintype.card Suit = 4 := by decide

/-! ## Structure of valid sets and runs -/

theorem is_valid_set_spec {cards : List Card} (h : is_valid_set cards = true) :
    (cards.length = 3 ∨ cards.length = 4) ∧ (∃ r, ∀ c ∈ cards, c.rank = r) ∧
      (cards.map Card.suit).Nodup := by
  unfold is_valid_set at h
  split at h
  case isFalse => simp at h
  case isTrue hlen =>
    rw [Bool.and_eq_true, beq_iff_eq, beq_iff_eq] at h
    obtain ⟨h1, h2⟩ := h
    refine ⟨hlen, ?_, ?_⟩
    · obtain ⟨r, hr⟩ := all_eq_of_dedup_length_one h1
      exact ⟨r, fun c hc => hr c.rank (List.mem_map_of_mem Card.rank hc)⟩
    · exact nodup_of_dedup_length (by rw [h2, List.length_map])

theorem is_valid_set_nodup {cards : List Card} (h : is_valid_set cards = true) :
    cards.Nodup :=
  ((is_valid_set_spec h).2.2).of_map Card.suit

theorem is_consecutive_eq_range' :
    ∀ (a : Nat) (l : List Nat), is_consecutive (a :: l) = true →
      a :: l = List.range' a (l.length + 1) := by
  intro a l
  induction l generalizing a with
  | nil => intro _; rfl
  | cons b t ih =>
    intro h
    rw [is_consecutive, Bool.and_eq_true, beq_iff_eq] at h
    obtain ⟨hb, ht⟩ := h
    subst hb
    rw [List.range'_succ]
    simpa using ih (a + 1) ht

theorem is_consecutive_range' : ∀ (n a : Nat), is_consecutive (List.range' a n) = true := by
  intro n
  induction n with
  | zero => intro a; rfl
  | succ m ih =>
    intro a
    rw [List.range'_succ]
    cases m with
    | zero => rfl
    | succ k =>
      rw [List.range'_succ, is_consecutive, Bool.and_eq_true, ← List.range'_succ]
      exact ⟨by simp, ih (a + 1)⟩

theorem is_valid_run_spec {cards : List Card} (h : is_valid_run cards = true) :
    3 ≤ cards.length ∧ (∃ s, ∀ c ∈ cards, c.suit = s) ∧
      is_consecutive
        (List.insertionSort (· ≤ ·) (cards.map fun c => c.rank.value)) = true := by
  unfold is_valid_run at h
  split at h
  case isTrue => simp at h
  case isFalse hlen =>
    split at h
    case isTrue => simp at h
    case isFalse hsuit =>
      push_neg at hsuit
      refine ⟨Nat.le_of_not_lt hlen, ?_, h⟩
      obtain ⟨s, hs⟩ := all_eq_of_dedup_length_one hsuit
      exact ⟨s, fun c hc => hs c.suit (List.mem_map_of_mem Card.suit hc)⟩

theorem is_valid_run_values {cards : List Card} (h : is_valid_run cards = true) :
    ∃ v, (List.insertionSort (· ≤ ·) (cards.map fun c => c.rank.value)) =
      List.range' v cards.length := by
  obtain ⟨hlen, _, hcons⟩ := is_valid_run_spec h
  set l := List.insertionSort (· ≤ ·) (cards.map fun c => c.rank.value) with hl
  have hlength : l.length = cards.length := by
    rw [hl, (List.perm_insertionSort _ _).length_eq, List.length_map]
  match hml : l, hlength with
  | [], hlength => simp at hlength; omega
  | a :: t, hlength =>
    refine ⟨a, ?_⟩
    rw [← hlength]
    exact is_consecutive_eq_range' a t (hml ▸ hcons)

theorem is_valid_run_nodup {cards : List Card} (h : is_valid_run cards = true) :
    cards.Nodup := by
  obtain ⟨v, hv⟩ := is_valid_run_values h
  have hperm := List.perm_insertionSort (· ≤ ·) (cards.map fun c => c.rank.value)
  rw [hv] at hperm
  have : (cards.map fun c => c.rank.value).Nodup :=
    (hperm.nodup_iff).mp (by simp [List.nodup_range'])
  exact this.of_map _

theorem is_valid_meld_nodup {cards : List Card} (h : is_valid_meld cards = true) :
    cards.Nodup := by
  rw [is_valid_meld, Bool.or_eq_true] at h
  rcases h with h | h
  · exact is_valid_set_nodup h
  · exact is_valid_run_nodup h

theorem is_valid_meld_ne_nil {cards : List Card} (h : is_valid_meld cards = true) :
    cards ≠ [] := by
  rw [is_valid_meld, Bool.or_eq_true] at h
  rcases h with h | h
  · rcases (is_valid_set_spec h).1 with h3 | h4 <;>
      (intro hnil; subst hnil; simp_all)
  · have := (is_valid_run_spec h).1
    intro hnil; subst hnil; simp_all

/-! ## Soundness and completeness of `find_sets` -/

theorem mem_rank_group {hand : List Card} {r : Rank} {c : Card} :
    c ∈ hand.filter (fun c => c.rank == r) ↔ c ∈ hand ∧ c.rank = r := by
  simp [List.mem_filter]

theorem rank_group_nodup {hand : List Card} (hnd : hand.Nodup) (r : Rank) :
    (hand.filter (fun c => c.rank == r)).Nodup := hnd.filter _

theorem suits_nodup_of_same_rank {l : List Card} (hnd : l.Nodup) {r : Rank}
    (hr : ∀ c ∈ l, c.rank = r) : (l.map Card.suit).Nodup := by
  refine hnd.map_on ?_
  intro x hx y hy hxy
  exact (Card.eq_of_parts (by rw [hr x hx, hr y hy]) hxy).symm ▸ rfl

theorem same_rank_group_le_four {l : List Card} (hnd : l.Nodup) {r : Rank}
    (hr : ∀ c ∈ l, c.rank = r) : l.length ≤ 4 := by
  have h := (suits_nodup_of_same_rank hnd hr).length_le_card
  rw [List.length_map, suit_card_eq] at h
  exact h

theorem find_sets_sound {hand m : List Card} (hnd : hand.Nodup)
    (hm : m ∈ find_sets hand) :
    is_valid_set m = true ∧ (∀ c ∈ m, c ∈ hand) ∧ m.Nodup := by
  rw [find_sets, List.mem_flatMap] at hm
  obtain ⟨r, -, hm⟩ := hm
  set group := rank_group hand r with hg
  have hgnd : group.Nodup := rank_group_nodup hnd r
  have hgrank : ∀ c ∈ group, c.rank = r := fun c hc => (mem_rank_group.mp hc).2
  have hghand : ∀ c ∈ group, c ∈ hand := fun c hc => (mem_rank_group.mp hc).1
  split at hm
  case isFalse => simp at hm
  case isTrue hglen =>
    have key : m.Sublist group ∧ (m.length = 3 ∨ m.length = 4) := by
      rw [List.mem_append] at hm
      rcases hm with hm | hm
      · obtain ⟨hs, hl⟩ := (List.mem_sublistsLen.mp hm)
        exact ⟨hs, Or.inl hl⟩
      · split at hm
        case isTrue h4 =>
          rw [List.mem_singleton] at hm
          subst hm
          exact ⟨List.Sublist.refl _, Or.inr h4⟩
        case isFalse => simp at hm
    obtain ⟨hsub, hlen⟩ := key
    have hmnd : m.Nodup := hsub.nodup hgnd
    have hmrank : ∀ c ∈ m, c.rank = r := fun c hc => hgrank c (hsub.mem hc)
    have hmne : m ≠ [] := by
      intro hnil; subst hnil; simp at hlen
    refine ⟨?_, fun c hc => hghand c (hsub.mem hc), hmnd⟩
    rw [is_valid_set, if_pos hlen, Bool.and_eq_true, beq_iff_eq, beq_iff_eq]
    constructor
    · rw [dedup_eq_singleton_of_all_eq (m.map Card.rank)
        (by simpa using hmne)
        (by intro x hx; obtain ⟨c, hc, rfl⟩ := List.mem_map.mp hx; exact hmrank c hc)]
      rfl
    · rw [dedup_length_of_nodup (suits_nodup_of_same_rank hmnd hmrank),
        List.length_map]

theorem find_sets_complete {hand m : List Card} (hnd : hand.Nodup)
    (hvs : is_valid_set m = true) (hsub : ∀ c ∈ m, c ∈ hand) :
    ∃ m' ∈ find_sets hand, ∀ c, c ∈ m' ↔ c ∈ m := by
  obtain ⟨hlen, ⟨r, hr⟩, hsuits⟩ := is_valid_set_spec hvs
  have hmnd : m.Nodup := hsuits.of_map Card.suit
  set group := rank_group hand r with hg
  have hmg : m ⊆ group := by
    intro c hc
    exact mem_rank_group.mpr ⟨hsub c hc, hr c hc⟩
  obtain ⟨m₂, hm₂p, hm₂s⟩ := (hmnd.subperm hmg)
  have hglen : m.length ≤ group.length := by
    rw [← hm₂p.length_eq]
    exact hm₂s.length_le
  have hg3 : 3 ≤ group.length := by rcases hlen with h | h <;> omega
  rcases hlen with h3 | h4
  · refine ⟨m₂, ?_, fun c => hm₂p.mem_iff⟩
    rw [find_sets, List.mem_flatMap]
    refine ⟨r, all_ranks_mem r, ?_⟩
    rw [← hg]
    rw [if_pos (by omega), List.mem_append]
    exact Or.inl (List.mem_sublistsLen.mpr ⟨hm₂s, by rw [hm₂p.length_eq, h3]⟩)
  · have hgnd : group.Nodup := rank_group_nodup hnd r
    have hg4 : group.length ≤ 4 :=
      same_rank_group_le_four hgnd (fun c hc => (mem_rank_group.mp hc).2)
    have hge : group.length = 4 := by omega
    have hm₂g : m₂ = group := hm₂s.eq_of_length (by rw [hm₂p.length_eq, h4, hge])
    refine ⟨group, ?_, fun c => (hm₂g ▸ hm₂p).mem_iff⟩
    rw [find_sets, List.mem_flatMap]
    refine ⟨r, all_ranks_mem r, ?_⟩
    rw [← hg, if_pos (by omega), List.mem_append, if_pos hge]
    simp

/-! ## Soundness and completeness of `find_runs` -/

theorem mem_suit_group {hand : List Card} {s : Suit} {c : Card} :
    c ∈ suit_group hand s ↔ c ∈ hand ∧ c.suit = s := by
  simp [suit_group, List.mem_filter]

theorem sorted_suit_group_perm (hand : List Card) (s : Suit) :
    (sorted_suit_group hand s).Perm (suit_group hand s) :=
  List.perm_insertionSort _ _

theorem mem_sorted_suit_group {hand : List Card} {s : Suit} {c : Card} :
    c ∈ sorted_suit_group hand s ↔ c ∈ hand ∧ c.suit = s := by
  rw [(sorted_suit_group_perm hand s).mem_iff, mem_suit_group]

theorem sorted_suit_group_sorted (hand : List Card) (s : Suit) :
    (sorted_suit_group hand s).Sorted value_le :=
  List.sorted_insertionSort _ _

theorem sorted_suit_group_nodup {hand : List Card} (hnd : hand.Nodup) (s : Suit) :
    (sorted_suit_group hand s).Nodup :=
  ((sorted_suit_group_perm hand s).nodup_iff).mpr (hnd.filter _)

theorem same_suit_values_nodup {l : List Card} (hnd : l.Nodup) {s : Suit}
    (hs : ∀ c ∈ l, c.suit = s) : (l.map (fun c => c.rank.value)).Nodup := by
  refine hnd.map_on ?_
  intro x hx y hy hxy
  exact Card.eq_of_parts (Rank.value_inj _ _ hxy) (by rw [hs x hx, hs y hy])

theorem sorted_suit_group_values_strict {hand : List Card} (hnd : hand.Nodup)
    (s : Suit) :
    ((sorted_suit_group hand s).map (fun c => c.rank.value)).Sorted (· < ·) := by
  have h1 : ((sorted_suit_group hand s).map (fun c => c.rank.value)).Sorted (· ≤ ·) := by
    refine List.Pairwise.map _ ?_ (sorted_suit_group_sorted hand s)
    intro a b hab
    exact hab
  refine h1.lt_of_le ?_
  exact same_suit_values_nodup (sorted_suit_group_nodup hnd s)
    (fun c hc => (mem_sorted_suit_group.mp hc).2)

theorem map_value_eq_of_suits (s : Suit) :
    ∀ (l1 l2 : List Card), (∀ c ∈ l1, c.suit = s) → (∀ c ∈ l2, c.suit = s) →
      l1.map (fun c => c.rank.value) = l2.map (fun c => c.rank.value) → l1 = l2 := by
  intro l1
  induction l1 with
  | nil =>
    intro l2 _ _ h
    cases l2 with
    | nil => rfl
    | cons b t => simp at h
  | cons a t1 ih =>
    intro l2 hs1 hs2 h
    cases l2 with
    | nil => simp at h
    | cons b t2 =>
      simp only [List.map_cons, List.cons.injEq] at h
      have hab : a = b :=
        Card.eq_of_parts (Rank.value_inj _ _ h.1)
          (by rw [hs1 a (by simp), hs2 b (by simp)])
      rw [hab, ih t2 (fun c hc => hs1 c (by simp [hc]))
        (fun c hc => hs2 c (by simp [hc])) h.2]

theorem sorted_prefix_range' :
    ∀ (k : Nat), 0 < k → ∀ (v : Nat) (vs : List Nat),
      vs.Sorted (· < ·) → vs.head? = some v → (∀ i, i < k → v + i ∈ vs) →
      vs.take k = List.range' v k := by
  intro k
  induction k with
  | zero => intro h; omega
  | succ k' ih =>
    intro _ v vs hsort hhead hmem
    match vs, hhead with
    | v :: vs', rfl =>
      rw [List.range'_succ, List.take_succ_cons]
      rcases Nat.eq_zero_or_pos k' with hk0 | hkpos
      · subst hk0; rfl
      · have hlt : ∀ x ∈ vs', v < x := by
          intro x hx
          exact (List.sorted_cons.mp hsort).1 x hx
        have hv1 : v + 1 ∈ vs' := by
          have := hmem 1 (by omega)
          rcases List.mem_cons.mp this with h | h
          · omega
          · exact h
        have hne : vs' ≠ [] := by rintro rfl; simp at hv1
        have hhead' : vs'.head? = some (v + 1) := by
          match vs', hv1 with
          | w :: vs'', hv1 =>
            have hw : v < w := hlt w (by simp)
            rcases List.mem_cons.mp hv1 with h | h
            · simp [h]
            · have hsortw : ∀ x ∈ vs'', w < x :=
                (List.sorted_cons.mp (List.sorted_cons.mp hsort).2).1
              have := hsortw _ h
              have : w = v + 1 := by omega
              simp [this]
        have hmem' : ∀ i, i < k' → (v + 1) + i ∈ vs' := by
          intro i hi
          have := hmem (i + 1) (by omega)
          rcases List.mem_cons.mp this with h | h
          · omega
          · have : v + (i + 1) = (v + 1) + i := by omega
            rw [this] at h
            exact h
        rw [ih hkpos (v + 1) vs' (List.sorted_cons.mp hsort).2 hhead' hmem']

theorem sorted_window_range' :
    ∀ (vs : List Nat), vs.Sorted (· < ·) → ∀ (v k : Nat), 0 < k →
      (∀ i, i < k → v + i ∈ vs) →
      ∃ start, (vs.drop start).take k = List.range' v k := by
  intro vs
  induction vs with
  | nil =>
    intro _ v k hk hmem
    have := hmem 0 hk
    simp at this
  | cons w vs' ih =>
    intro hsort v k hk hmem
    rcases eq_or_ne w v with hw | hw
    · subst hw
      exact ⟨0, sorted_prefix_range' k hk w (w :: vs') hsort rfl hmem⟩
    · have hmem' : ∀ i, i < k → v + i ∈ vs' := by
        intro i hi
        have hin := hmem i hi
        rcases List.mem_cons.mp hin with h | h
        · exfalso
          rcases Nat.eq_zero_or_pos i with hi0 | hipos
          · subst hi0; simp at h; exact hw h.symm
          · have hv : v ∈ w :: vs' := hmem 0 hk
            rcases List.mem_cons.mp hv with h2 | h2
            · exact hw h2.symm
            · have := (List.sorted_cons.mp hsort).1 v h2
              omega
        · exact h
      obtain ⟨start, hstart⟩ := ih (List.sorted_cons.mp hsort).2 v k hk hmem'
      exact ⟨start + 1, by simpa using hstart⟩

theorem find_runs_sound {hand m : List Card} (hnd : hand.Nodup)
    (hm : m ∈ find_runs hand) :
    is_valid_run m = true ∧ (∀ c ∈ m, c ∈ hand) ∧ m.Nodup := by
  rw [find_runs, List.mem_flatMap] at hm
  obtain ⟨s, -, hm⟩ := hm
  set sc := sorted_suit_group hand s with hsc
  rw [find_runs_of_suit, List.mem_flatMap] at hm
  obtain ⟨start, hstart, hm⟩ := hm
  rw [List.mem_filterMap] at hm
  obtain ⟨e, he, hm⟩ := hm
  rw [List.mem_range] at hstart
  rw [List.mem_range'_1] at he
  split at hm
  case isFalse => simp at hm
  case isTrue hcons =>
    rw [Option.some.injEq] at hm
    subst hm
    have hele : e ≤ sc.length := by omega
    have hlen : ((sc.drop start).take (e - start)).length = e - start := by
      rw [List.length_take, List.length_drop]
      omega
    have hsub : ((sc.drop start).take (e - start)).Sublist sc :=
      ((sc.drop start).take_sublist _).trans (sc.drop_sublist start)
    have hsubmem : ∀ c ∈ (sc.drop start).take (e - start), c ∈ sc :=
      fun c hc => hsub.mem hc
    have hscnd : sc.Nodup := sorted_suit_group_nodup hnd s
    refine ⟨?_, fun c hc => (mem_sorted_suit_group.mp (hsubmem c hc)).1,
      hsub.nodup hscnd⟩
    rw [is_valid_run]
    rw [if_neg (by omega)]
    have hsuits : ∀ c ∈ (sc.drop start).take (e - start), c.suit = s :=
      fun c hc => (mem_sorted_suit_group.mp (hsubmem c hc)).2
    have hne : (sc.drop start).take (e - start) ≠ [] := by
      intro hnil
      rw [hnil] at hlen
      simp at hlen
      omega
    rw [if_neg ?_]
    · have hsorted : ((sc.drop start).take (e - start)).Sorted value_le :=
        (sorted_suit_group_sorted hand s).sublist hsub
      have hvalsorted :
          (((sc.drop start).take (e - start)).map (fun c => c.rank.value)).Sorted
            (· ≤ ·) := by
        refine List.Pairwise.map _ ?_ hsorted
        intro a b hab
        exact hab
      rw [hvalsorted.insertionSort_eq]
      exact hcons
    · push_neg
      rw [dedup_eq_singleton_of_all_eq _ (by simpa using hne)
        (by intro x hx; obtain ⟨c, hc, rfl⟩ := List.mem_map.mp hx; exact hsuits c hc)]
      rfl

theorem find_runs_complete {hand m : List Card} (hnd : hand.Nodup)
    (hvr : is_valid_run m = true) (hsub : ∀ c ∈ m, c ∈ hand) :
    ∃ m' ∈ find_runs hand, ∀ c, c ∈ m' ↔ c ∈ m := by
  obtain ⟨hlen3, ⟨s, hs⟩, -⟩ := is_valid_run_spec hvr
  obtain ⟨v, hv⟩ := is_valid_run_values hvr
  have hsrtperm :
      (List.insertionSort (· ≤ ·) (m.map fun c => c.rank.value)).Perm
        (m.map fun c => c.rank.value) := List.perm_insertionSort _ _
  rw [hv] at hsrtperm
  set sc := sorted_suit_group hand s with hsc
  set k := m.length with hk
  have hksc : ∀ c ∈ m, c ∈ sc := fun c hc =>
    mem_sorted_suit_group.mpr ⟨hsub c hc, hs c hc⟩
  have hvs : ((sc.map (fun c => c.rank.value))).Sorted (· < ·) :=
    sorted_suit_group_values_strict hnd s
  have hint : ∀ i, i < k → v + i ∈ sc.map (fun c => c.rank.value) := by
    intro i hi
    have : v + i ∈ List.range' v k := List.mem_range'_1.mpr ⟨by omega, by omega⟩
    have := hsrtperm.mem_iff.mp this
    obtain ⟨c, hc, hcv⟩ := List.mem_map.mp this
    exact List.mem_map.mpr ⟨c, hksc c hc, hcv⟩
  obtain ⟨start, hwin⟩ :=
    sorted_window_range' _ hvs v k (by omega) hint
  rw [← List.map_drop, ← List.map_take] at hwin
  set m' := (sc.drop start).take k with hm'
  have hm'len : m'.length = k := by
    have := congrArg List.length hwin
    rw [List.length_map, List.length_range'] at this
    exact this
  have hstartlen : start + k ≤ sc.length := by
    have h1 : m'.length = min k (sc.length - start) := by
      rw [hm', List.length_take, List.length_drop]
    rw [hm'len] at h1
    rcases Nat.le_total k (sc.length - start) with h | h
    · rcases Nat.le_total start sc.length with h2 | h2
      · omega
      · have : sc.length - start = 0 := by omega
        omega
    · have : min k (sc.length - start) = sc.length - start := by omega
      omega
  have hm'suits : ∀ c ∈ m', c.suit = s := by
    intro c hc
    have : c ∈ sc :=
      (((sc.drop start).take_sublist _).trans (sc.drop_sublist start)).mem hc
    exact (mem_sorted_suit_group.mp this).2
  refine ⟨m', ?_, ?_⟩
  · rw [find_runs, List.mem_flatMap]
    refine ⟨s, all_suits_mem s, ?_⟩
    rw [← hsc, find_runs_of_suit, List.mem_flatMap]
    refine ⟨start, List.mem_range.mpr (by omega), ?_⟩
    rw [List.mem_filterMap]
    refine ⟨start + k, List.mem_range'_1.mpr ⟨by omega, by omega⟩, ?_⟩
    have hek : start + k - start = k := by omega
    rw [hek, ← hm', if_pos ?_]
    rw [hwin]
    exact is_consecutive_range' k v
  · intro c
    constructor
    · intro hc
      have hcv : c.rank.value ∈ List.range' v k := by
        rw [← hwin]
        exact List.mem_map.mpr ⟨c, hc, rfl⟩
      have : c.rank.value ∈ m.map (fun c => c.rank.value) :=
        hsrtperm.mem_iff.mp hcv
      obtain ⟨d, hd, hdv⟩ := List.mem_map.mp this
      have : d = c :=
        Card.eq_of_parts (Rank.value_inj _ _ hdv)
          (by rw [hs d hd, hm'suits c hc])
      exact this ▸ hd
    · intro hc
      have hcv : c.rank.value ∈ List.range' v k :=
        hsrtperm.mem_iff.mpr (List.mem_map.mpr ⟨c, hc, rfl⟩)
      have : c.rank.value ∈ m'.map (fun c => c.rank.value) := by
        rw [hwin]
        exact hcv
      obtain ⟨d, hd, hdv⟩ := List.mem_map.mp this
      have : d = c :=
        Card.eq_of_parts (Rank.value_inj _ _ hdv)
          (by rw [hs c hc, hm'suits d hd])
      exact this ▸ hd

/-! ## Combined enumeration facts -/

theorem find_all_melds_sound {hand m : List Card} (hnd : hand.Nodup)
    (hm : m ∈ find_all_melds hand) :
    is_valid_meld m = true ∧ (∀ c ∈ m, c ∈ hand) ∧ m.Nodup := by
  rw [find_all_melds, List.mem_append] at hm
  rcases hm with hm | hm
  · obtain ⟨h1, h2, h3⟩ := find_sets_sound hnd hm
    exact ⟨by rw [is_valid_meld, h1, Bool.true_or], h2, h3⟩
  · obtain ⟨h1, h2, h3⟩ := find_runs_sound hnd hm
    exact ⟨by rw [is_valid_meld, h1, Bool.or_true], h2, h3⟩

theorem find_all_melds_complete {hand m : List Card} (hnd : hand.Nodup)
    (hvm : is_valid_meld m = true) (hsub : ∀ c ∈ m, c ∈ hand) :
    ∃ m' ∈ find_all_melds hand, ∀ c, c ∈ m' ↔ c ∈ m := by
  rw [is_valid_meld, Bool.or_eq_true] at hvm
  rcases hvm with h | h
  · obtain ⟨m', hm', hiff⟩ := find_sets_complete hnd h hsub
    exact ⟨m', by rw [find_all_melds, List.mem_append]; exact Or.inl hm', hiff⟩
  · obtain ⟨m', hm', hiff⟩ := find_runs_complete hnd h hsub
    exact ⟨m', by rw [find_all_melds, List.mem_append]; exact Or.inr hm', hiff⟩

/-! ## Disjoint meld collections and the search invariants -/

/-- All cards of `m` come from `hand`. -/
def cards_subset (m hand : List Card) : Prop := ∀ c ∈ m, c ∈ hand

/-- No card is used by two melds of the collection. -/
def melds_disjoint (L : List (List Card)) : Prop :=
  L.Pairwise (fun m1 m2 => ∀ c ∈ m1, c ∉ m2)

/-- A collection of pairwise-disjoint valid melds formed from the hand's
cards: the competitors in the meld-partition optimality claim. -/
def valid_meld_collection (hand : List Card) (L : List (List Card)) : Prop :=
  (∀ m ∈ L, is_valid_meld m = true) ∧ (∀ m ∈ L, cards_subset m hand) ∧
    melds_disjoint L

/-- The cards of the hand left uncovered by the collection
(`[c for c in hand if c not in melded_cards]`). -/
def leftover (hand : List Card) (L : List (List Card)) : List Card :=
  hand.filter (fun c => !((meld_cards L).contains c))

theorem mem_meld_cards {L : List (List Card)} {c : Card} :
    c ∈ meld_cards L ↔ ∃ m ∈ L, c ∈ m := by
  simp [meld_cards]

theorem mem_leftover {hand : List Card} {L : List (List Card)} {c : Card} :
    c ∈ leftover hand L ↔ c ∈ hand ∧ ∀ m ∈ L, c ∉ m := by
  simp [leftover, List.mem_filter, mem_meld_cards]

theorem leftover_nil (hand : List Card) : leftover hand [] = hand := by
  simp [leftover, meld_cards]

theorem leftover_nodup {hand : List Card} (hnd : hand.Nodup)
    (L : List (List Card)) : (leftover hand L).Nodup := hnd.filter _

theorem leftover_append (hand : List Card) (L : List (List Card)) (m : List Card) :
    leftover hand (L ++ [m]) =
      (leftover hand L).filter (fun c => !(m.contains c)) := by
  rw [leftover, leftover, List.filter_filter]
  refine List.filter_congr ?_
  intro c _
  by_cases h1 : c ∈ meld_cards L <;> by_cases h2 : c ∈ m <;>
    simp [meld_cards, h1, h2, List.mem_flatten] at * <;>
    simp_all [meld_cards, List.mem_flatten]

theorem valid_meld_collection_perm {hand hand' : List Card} (hp : hand.Perm hand')
    {L : List (List Card)} (hL : valid_meld_collection hand L) :
    valid_meld_collection hand' L :=
  ⟨hL.1, fun m hm c hc => hp.mem_iff.mp (hL.2.1 m hm c hc), hL.2.2⟩

theorem leftover_perm {hand hand' : List Card} (hp : hand.Perm hand')
    (L : List (List Card)) : (leftover hand L).Perm (leftover hand' L) :=
  hp.filter _

/-! ## Chains of applicable melds (paths in the search tree) -/

/-- Each meld of the list is, in turn, a subset of what remains after
removing the previous melds' cards: the applicability condition checked by
`meld_set.issubset(remaining_set)` along one search path. -/
def chain_app : List Card → List (List Card) → Prop
  | _, [] => True
  | remaining, m :: S =>
      (∀ c ∈ m, c ∈ remaining) ∧
        chain_app (remaining.filter (fun c => !(m.contains c))) S

/-- The cards that remain after applying every meld of the chain. -/
def chain_rem : List Card → List (List Card) → List Card
  | remaining, [] => remaining
  | remaining, m :: S => chain_rem (remaining.filter (fun c => !(m.contains c))) S

theorem chain_rem_mem :
    ∀ (S : List (List Card)) (remaining : List Card) (c : Card),
      c ∈ chain_rem remaining S ↔ c ∈ remaining ∧ ∀ m ∈ S, c ∉ m := by
  intro S
  induction S with
  | nil => intro remaining c; simp [chain_rem]
  | cons m S' ih =>
    intro remaining c
    rw [chain_rem, ih]
    simp [List.mem_filter]
    tauto

theorem chain_rem_nodup :
    ∀ (S : List (List Card)) {remaining : List Card}, remaining.Nodup →
      (chain_rem remaining S).Nodup := by
  intro S
  induction S with
  | nil => intro remaining h; exact h
  | cons m S' ih => intro remaining h; exact ih (h.filter _)

theorem chain_app_of_disjoint :
    ∀ (S : List (List Card)) (remaining : List Card),
      melds_disjoint S → (∀ m ∈ S, cards_subset m remaining) →
      chain_app remaining S := by
  intro S
  induction S with
  | nil => intro remaining _ _; trivial
  | cons m S' ih =>
    intro remaining hdisj hsub
    refine ⟨hsub m (by simp), ?_⟩
    have hd := List.pairwise_cons.mp hdisj
    refine ih _ hd.2 ?_
    intro m' hm' c hc
    rw [List.mem_filter]
    refine ⟨hsub m' (by simp [hm']) c hc, ?_⟩
    have : c ∉ m := fun hcm => hd.1 m' hm' c hcm hc
    simpa using this

/-! ## Properties of the backtracking search -/

theorem meld_all_contains_iff {meld remaining : List Card} :
    meld.all (fun c => remaining.contains c) = true ↔ ∀ c ∈ meld, c ∈ remaining := by
  simp [List.all_eq_true]

theorem fbm_loop_mono :
    ∀ (suffix : List (List Card)) (remaining : List Card)
      (current : List (List Card)) (best : List (List Card) × Nat),
      (fbm_loop remaining suffix current best).2 ≤ best.2 := by
  intro suffix
  induction suffix with
  | nil => intro remaining current best; rfl
  | cons meld rest ih =>
    intro remaining current best
    by_cases happ : meld.all (fun c => remaining.contains c) = true
    · simp only [fbm_loop, happ, if_true]
      refine (ih _ _ _).trans ?_
      refine (ih _ _ _).trans ?_
      split
      next h => exact Nat.le_of_lt h
      next h => exact Nat.le_refl _
    · simp only [fbm_loop, happ, if_false]
      exact ih _ _ _

theorem fbm_loop_le :
    ∀ (suffix : List (List Card)) (remaining : List Card)
      (current : List (List Card)) (best : List (List Card) × Nat)
      (S : List (List Card)),
      S.Sublist suffix → chain_app remaining S →
      best.2 ≤ dw_sum remaining.dedup →
      (fbm_loop remaining suffix current best).2 ≤
        dw_sum (chain_rem remaining S).dedup := by
  intro suffix
  induction suffix with
  | nil =>
    intro remaining current best S hS hchain hbest
    rw [List.sublist_nil.mp hS]
    exact hbest
  | cons meld rest ih =>
    intro remaining current best S hS hchain hbest
    cases hS with
    | cons _ hS' =>
      by_cases happ : meld.all (fun c => remaining.contains c) = true
      · simp only [fbm_loop, happ, if_true]
        refine ih _ _ _ _ hS' hchain ?_
        refine (fbm_loop_mono _ _ _ _).trans ?_
        split
        next h => exact (Nat.le_of_lt h).trans hbest
        next h => exact hbest
      · simp only [fbm_loop, happ, if_false]
        exact ih _ _ _ _ hS' hchain hbest
    | cons₂ _ hS' =>
      obtain ⟨hsub, hchain'⟩ := hchain
      have happ : meld.all (fun c => remaining.contains c) = true :=
        meld_all_contains_iff.mpr hsub
      simp only [fbm_loop, happ, if_true]
      rw [chain_rem]
      refine (fbm_loop_mono _ _ _ _).trans ?_
      refine ih _ _ _ _ hS' hchain' ?_
      split
      next h => exact Nat.le_refl _
      next h => exact Nat.le_of_not_lt h

/-- The search accumulator is sound: its meld list is a valid disjoint
collection from the hand and its deadwood entry is the deadwood of that
collection's leftover. -/
def good (hand : List Card) (p : List (List Card) × Nat) : Prop :=
  valid_meld_collection hand p.1 ∧ p.2 = dw_sum (leftover hand p.1)

theorem fbm_loop_good {hand : List Card} (hnd : hand.Nodup) :
    ∀ (suffix : List (List Card)) (remaining : List Card)
      (current : List (List Card)) (best : List (List Card) × Nat),
      (∀ m ∈ suffix, m ∈ find_all_melds hand) →
      valid_meld_collection hand current →
      remaining = leftover hand current →
      good hand best →
      good hand (fbm_loop remaining suffix current best) := by
  intro suffix
  induction suffix with
  | nil => intro remaining current best _ _ _ hbest; exact hbest
  | cons meld rest ih =>
    intro remaining current best hsuffix hcur hrem hbest
    have hrest : ∀ m ∈ rest, m ∈ find_all_melds hand :=
      fun m hm => hsuffix m (by simp [hm])
    by_cases happ : meld.all (fun c => remaining.contains c) = true
    · simp only [fbm_loop, happ, if_true]
      have hmeldsub : ∀ c ∈ meld, c ∈ remaining := meld_all_contains_iff.mp happ
      obtain ⟨hmvalid, hmhand, hmnodup⟩ :=
        find_all_melds_sound hnd (hsuffix meld (by simp))
      have hcur' : valid_meld_collection hand (current ++ [meld]) := by
        refine ⟨?_, ?_, ?_⟩
        · intro m hm
          rcases List.mem_append.mp hm with h | h
          · exact hcur.1 m h
          · rw [List.mem_singleton.mp h]; exact hmvalid
        · intro m hm
          rcases List.mem_append.mp hm with h | h
          · exact hcur.2.1 m h
          · rw [List.mem_singleton.mp h]; exact hmhand
        · rw [melds_disjoint, List.pairwise_append]
          refine ⟨hcur.2.2, List.pairwise_singleton _ _, ?_⟩
          intro m1 hm1 m2 hm2 c hc
          rw [List.mem_singleton.mp hm2]
          intro hcmeld
          have := hmeldsub c hcmeld
          rw [hrem, mem_leftover] at this
          exact this.2 m1 hm1 hc
      have hrem' :
          remaining.filter (fun c => !(meld.contains c)) =
            leftover hand (current ++ [meld]) := by
        rw [hrem, leftover_append]
      have hb1 :
          good hand
            (if dw_sum (remaining.filter (fun c => !(meld.contains c))).dedup <
                best.2 then
              (current ++ [meld],
                dw_sum (remaining.filter (fun c => !(meld.contains c))).dedup)
            else best) := by
        split
        next h =>
          refine ⟨hcur', ?_⟩
          have : (remaining.filter (fun c => !(meld.contains c))).Nodup := by
            rw [hrem']
            exact leftover_nodup hnd _
          rw [this.dedup, hrem']
        next h => exact hbest
      exact ih _ _ _ hrest hcur hrem (ih _ _ _ hrest hcur' hrem' hb1)
    · simp only [fbm_loop, happ, if_false]
      exact ih _ _ _ hrest hcur hrem hbest

instance (m hand : List Card) : Decidable (cards_subset m hand) :=
  inferInstanceAs (Decidable (∀ c ∈ m, c ∈ hand))

instance (L : List (List Card)) : Decidable (melds_disjoint L) :=
  inferInstanceAs (Decidable (L.Pairwise _))

instance (hand : List Card) (L : List (List Card)) :
    Decidable (valid_meld_collection hand L) :=
  inferInstanceAs (Decidable (_ ∧ _ ∧ _))

theorem nodup_of_disjoint_nonempty :
    ∀ (R : List (List Card)), melds_disjoint R → (∀ m ∈ R, m ≠ []) → R.Nodup := by
  intro R
  induction R with
  | nil => intro _ _; exact List.nodup_nil
  | cons a R ih =>
    intro hdisj hne
    have hd := List.pairwise_cons.mp hdisj
    refine List.nodup_cons.mpr ⟨?_, ih hd.2 (fun m hm => hne m (by simp [hm]))⟩
    intro ha
    obtain ⟨c, hc⟩ := List.exists_mem_of_ne_nil a (hne a (by simp))
    exact hd.1 a ha c hc hc

/-- Every disjoint valid-meld collection has a member-for-member stand-in
drawn from `find_all_melds hand` covering the same cards. -/
theorem collection_reps {hand : List Card} (hnd : hand.Nodup) :
    ∀ (L : List (List Card)), valid_meld_collection hand L →
      ∃ R : List (List Card),
        (∀ m ∈ R, m ∈ find_all_melds hand) ∧ melds_disjoint R ∧
        (∀ m ∈ R, cards_subset m hand) ∧ (∀ m ∈ R, m ≠ []) ∧
        (∀ c : Card, c ∈ meld_cards R ↔ c ∈ meld_cards L) := by
  intro L
  induction L with
  | nil =>
    intro _
    exact ⟨[], by simp, List.Pairwise.nil, by simp, by simp, fun c => Iff.rfl⟩
  | cons m L' ih =>
    intro hL
    have hmvalid : is_valid_meld m = true := hL.1 m (by simp)
    have hmhand : cards_subset m hand := hL.2.1 m (by simp)
    have hdisj := List.pairwise_cons.mp hL.2.2
    have hL' : valid_meld_collection hand L' :=
      ⟨fun x hx => hL.1 x (by simp [hx]), fun x hx => hL.2.1 x (by simp [hx]),
        hdisj.2⟩
    obtain ⟨R', hR'pool, hR'disj, hR'hand, hR'ne, hR'cards⟩ := ih hL'
    obtain ⟨m', hm'pool, hm'iff⟩ := find_all_melds_complete hnd hmvalid hmhand
    refine ⟨m' :: R', ?_, ?_, ?_, ?_, ?_⟩
    · intro x hx
      rcases List.mem_cons.mp hx with h | h
      · exact h ▸ hm'pool
      · exact hR'pool x h
    · refine List.pairwise_cons.mpr ⟨?_, hR'disj⟩
      intro m'' hm'' c hc hcm''
      have hcm : c ∈ m := (hm'iff c).mp hc
      have : c ∈ meld_cards R' := mem_meld_cards.mpr ⟨m'', hm'', hcm''⟩
      have : c ∈ meld_cards L' := (hR'cards c).mp this
      obtain ⟨mL, hmL, hcmL⟩ := mem_meld_cards.mp this
      exact hdisj.1 mL hmL c hcm hcmL
    · intro x hx
      rcases List.mem_cons.mp hx with h | h
      · subst h
        exact fun c hc => hmhand c ((hm'iff c).mp hc)
      · exact hR'hand x h
    · intro x hx
      rcases List.mem_cons.mp hx with h | h
      · subst h
        intro hnil
        obtain ⟨c, hc⟩ :=
          List.exists_mem_of_ne_nil m (is_valid_meld_ne_nil hmvalid)
        have := (hm'iff c).mpr hc
        rw [hnil] at this
        simp at this
      · exact hR'ne x h
    · intro c
      constructor
      · intro hc
        obtain ⟨x, hx, hcx⟩ := mem_meld_cards.mp hc
        rcases List.mem_cons.mp hx with h | h
        · subst h
          exact mem_meld_cards.mpr ⟨m, by simp, (hm'iff c).mp hcx⟩
        · have : c ∈ meld_cards L' :=
            (hR'cards c).mp (mem_meld_cards.mpr ⟨x, h, hcx⟩)
          obtain ⟨mL, hmL, hcmL⟩ := mem_meld_cards.mp this
          exact mem_meld_cards.mpr ⟨mL, by simp [hmL], hcmL⟩
      · intro hc
        obtain ⟨x, hx, hcx⟩ := mem_meld_cards.mp hc
        rcases List.mem_cons.mp hx with h | h
        · subst h
          exact mem_meld_cards.mpr ⟨m', by simp, (hm'iff c).mpr hcx⟩
        · have : c ∈ meld_cards R' :=
            (hR'cards c).mpr (mem_meld_cards.mpr ⟨x, h, hcx⟩)
          obtain ⟨mR, hmR, hcmR⟩ := mem_meld_cards.mp this
          exact mem_meld_cards.mpr ⟨mR, by simp [hmR], hcmR⟩

theorem disjoint_symm :
    Symmetric (fun m1 m2 : List Card => ∀ c ∈ m1, c ∉ m2) := by
  intro a b h c hcb hca
  exact h c hca hcb

theorem find_best_melds_cached_spec {hand : List Card} (hnd : hand.Nodup) :
    valid_meld_collection hand (find_best_melds_cached hand).1 ∧
    (find_best_melds_cached hand).2 =
      leftover hand (find_best_melds_cached hand).1 ∧
    ∀ L, valid_meld_collection hand L →
      dw_sum (find_best_melds_cached hand).2 ≤ dw_sum (leftover hand L) := by
  have hcoll_nil : valid_meld_collection hand [] :=
    ⟨by simp, by simp, List.Pairwise.nil⟩
  by_cases hempty : (find_all_melds hand).isEmpty = true
  · have hres : find_best_melds_cached hand = ([], hand) := by
      rw [find_best_melds_cached, if_pos hempty]
    rw [hres]
    refine ⟨hcoll_nil, by rw [leftover_nil], ?_⟩
    intro L hL
    have hLnil : L = [] := by
      cases L with
      | nil => rfl
      | cons m L' =>
        exfalso
        obtain ⟨m', hm', -⟩ :=
          find_all_melds_complete hnd (hL.1 m (by simp)) (hL.2.1 m (by simp))
        rw [List.isEmpty_iff.mp hempty] at hm'
        simp at hm'
    rw [hLnil, leftover_nil]
  · have hres : find_best_melds_cached hand =
        ((fbm_loop hand (find_all_melds hand) [] ([], dw_sum hand)).1,
          hand.filter (fun c =>
            !((meld_cards
              (fbm_loop hand (find_all_melds hand) [] ([], dw_sum hand)).1).contains
                c))) := by
      rw [find_best_melds_cached, if_neg hempty, hnd.dedup]
      simp only [lt_irrefl, if_false]
    have hgood : good hand
        (fbm_loop hand (find_all_melds hand) [] ([], dw_sum hand)) := by
      refine fbm_loop_good hnd _ _ _ _ (fun m hm => hm) hcoll_nil
        (leftover_nil hand).symm ⟨hcoll_nil, ?_⟩
      rw [leftover_nil]
    set best := fbm_loop hand (find_all_melds hand) [] ([], dw_sum hand) with hbest
    have hsnd : (find_best_melds_cached hand).2 = leftover hand best.1 := by
      rw [hres]; rfl
    refine ⟨by rw [hres]; exact hgood.1, by rw [hres]; rfl, ?_⟩
    intro L hL
    obtain ⟨R, hRpool, hRdisj, hRhand, hRne, hRcards⟩ := collection_reps hnd L hL
    have hRnodup : R.Nodup := nodup_of_disjoint_nonempty R hRdisj hRne
    obtain ⟨S, hSR, hSsub⟩ := hRnodup.subperm (fun m hm => hRpool m hm)
    have hSdisj : melds_disjoint S :=
      (hSR.pairwise_iff (fun h => disjoint_symm h)).mpr hRdisj
    have hShand : ∀ m ∈ S, cards_subset m hand :=
      fun m hm => hRhand m (hSR.mem_iff.mp hm)
    have hchain : chain_app hand S := chain_app_of_disjoint S hand hSdisj hShand
    have hle := fbm_loop_le (find_all_melds hand) hand [] ([], dw_sum hand) S
      hSsub hchain (by rw [hnd.dedup])
    rw [← hbest] at hle
    have hcrnd : (chain_rem hand S).Nodup := chain_rem_nodup S hnd
    rw [hcrnd.dedup] at hle
    have hSL : ∀ c : Card, c ∈ meld_cards S ↔ c ∈ meld_cards L := by
      intro c
      rw [← hRcards c]
      constructor
      · intro hc
        obtain ⟨m, hm, hcm⟩ := mem_meld_cards.mp hc
        exact mem_meld_cards.mpr ⟨m, hSR.mem_iff.mp hm, hcm⟩
      · intro hc
        obtain ⟨m, hm, hcm⟩ := mem_meld_cards.mp hc
        exact mem_meld_cards.mpr ⟨m, hSR.mem_iff.mpr hm, hcm⟩
    have hperm : (chain_rem hand S).Perm (leftover hand L) := by
      rw [List.perm_ext_iff_of_nodup hcrnd (leftover_nodup hnd L)]
      intro c
      rw [chain_rem_mem, mem_leftover]
      constructor
      · rintro ⟨h1, h2⟩
        refine ⟨h1, fun m hm hcm => ?_⟩
        have : c ∈ meld_cards S := (hSL c).mpr (mem_meld_cards.mpr ⟨m, hm, hcm⟩)
        obtain ⟨mS, hmS, hcmS⟩ := mem_meld_cards.mp this
        exact h2 mS hmS hcmS
      · rintro ⟨h1, h2⟩
        refine ⟨h1, fun m hm hcm => ?_⟩
        have : c ∈ meld_cards L := (hSL c).mp (mem_meld_cards.mpr ⟨m, hm, hcm⟩)
        obtain ⟨mL, hmL, hcmL⟩ := mem_meld_cards.mp this
        exact h2 mL hmL hcmL
    rw [dw_sum_perm hperm] at hle
    rw [hsnd, ← hgood.2]
    exact hle

theorem find_best_melds_spec {hand : List Card} (hnd : hand.Nodup) :
    valid_meld_collection hand (find_best_melds hand).1 ∧
    calculate_deadwood hand =
      dw_sum (leftover hand (find_best_melds hand).1) ∧
    ∀ L, valid_meld_collection hand L →
      calculate_deadwood hand ≤ dw_sum (leftover hand L) := by
  by_cases hne : hand.isEmpty = true
  · have hhand : hand = [] := List.isEmpty_iff.mp hne
    subst hhand
    have hres : find_best_melds [] = ([], []) := by rw [find_best_melds]; rfl
    rw [calculate_deadwood, hres]
    refine ⟨⟨by simp, by simp, List.Pairwise.nil⟩, by rw [leftover_nil], ?_⟩
    intro L hL
    simp [dw_sum]
  · have hres : find_best_melds hand = find_best_melds_cached (sort_hand hand) := by
      rw [find_best_melds, if_neg hne]
    have hsp : (sort_hand hand).Perm hand := List.perm_insertionSort _ _
    have hsnd : (sort_hand hand).Nodup := hsp.nodup_iff.mpr hnd
    obtain ⟨h1, h2, h3⟩ := find_best_melds_cached_spec hsnd
    have hcalc : calculate_deadwood hand =
        dw_sum (find_best_melds_cached (sort_hand hand)).2 := by
      rw [calculate_deadwood, hres]
    refine ⟨?_, ?_, ?_⟩
    · rw [hres]
      exact valid_meld_collection_perm hsp h1
    · rw [hcalc, h2, hres]
      exact dw_sum_perm (leftover_perm hsp _)
    · intro L hL
      rw [hcalc]
      refine (h3 L (valid_meld_collection_perm hsp.symm hL)).trans ?_
      exact Nat.le_of_eq (dw_sum_perm (leftover_perm hsp _))

/-! ## Claim C1 -/

/-- C1: Meld-partition optimality.  For every hand of pairwise-distinct
cards, `calculate_deadwood(hand)` is nonnegative and at most the deadwood
point-sum of the cards left uncovered by any collection of pairwise-disjoint
valid melds formed from the hand's cards, and `find_best_melds` returns a
disjoint-meld collection from the hand whose leftover point-sum attains that
minimum. -/
theorem C1_meld_partition_optimality (hand : List Card) (hnd : hand.Nodup) :
    0 ≤ calculate_deadwood hand ∧
    (∀ L, valid_meld_collection hand L →
      calculate_deadwood hand ≤ dw_sum (leftover hand L)) ∧
    valid_meld_collection hand (find_best_melds hand).1 ∧
    calculate_deadwood hand =
      dw_sum (leftover hand (find_best_melds hand).1) := by
  obtain ⟨h1, h2, h3⟩ := find_best_melds_spec hnd
  exact ⟨Nat.zero_le _, h3, h1, h2⟩

/-- The spec's literal scenario 1 hand: 5♥ 5♦ 5♣ K♠. -/
def c1_hand : List Card :=
  [⟨.five, .hearts⟩, ⟨.five, .diamonds⟩, ⟨.five, .clubs⟩, ⟨.king, .spades⟩]

/-- A competing meld collection for the scenario hand: the set of fives. -/
def c1_coll : List (List Card) :=
  [[⟨.five, .hearts⟩, ⟨.five, .diamonds⟩, ⟨.five, .clubs⟩]]

theorem C1_meld_partition_optimality_witness :
    calculate_deadwood c1_hand ≤ dw_sum (leftover c1_hand c1_coll) ∧
    valid_meld_collection c1_hand (find_best_melds c1_hand).1 :=
  ⟨(C1_meld_partition_optimality c1_hand (by decide)).2.1 c1_coll (by decide),
   (C1_meld_partition_optimality c1_hand (by decide)).2.2.1⟩

/-! ## engine/rules.py : layoffs and `score_with_layoffs` -/

/-- `can_lay_off`: the meld extended by the card is still a valid set
or run (`extended = list(meld) + [card]`). -/
def can_lay_off (card : Card) (meld : List Card) : Bool :=
  is_valid_set (meld ++ [card]) || is_valid_run (meld ++ [card])

/-- The inner `for meld in knocker_melds: ... break` loop of `apply_layoffs`:
append the card to the first meld it can lay off onto; `none` when no meld
accepts it. -/
def append_first_layoff (card : Card) : List (List Card) → Option (List (List Card))
  | [] => none
  | meld :: rest =>
    if can_lay_off card meld then some ((meld ++ [card]) :: rest)
    else
      match append_first_layoff card rest with
      | some rest' => some (meld :: rest')
      | none => none

/-- One `for card in list(remaining)` pass of `apply_layoffs` over the
snapshot of the remaining cards: each card that lays off is appended to the
accepting meld and removed (`list.remove`, first occurrence) from the
remaining pool, and the `changed` flag is set. -/
def layoff_pass (melds : List (List Card)) :
    List Card → List Card → List (List Card) × List Card × Bool
  | [], remaining => (melds, remaining, false)
  | card :: snap, remaining =>
    match append_first_layoff card melds with
    | some melds' =>
      let r := layoff_pass melds' snap (remaining.erase card)
      (r.1, r.2.1, true)
    | none => layoff_pass melds snap remaining

/-- The `while changed` loop of `apply_layoffs`, with explicit fuel.  A pass
that reports `changed` removed at least one card from the remaining pool
(the engine only passes pairwise-distinct cards), so
`defender_unmelded.length + 1` passes always reach the fixed point that the
source's unbounded loop computes. -/
def apply_layoffs_loop :
    Nat → List (List Card) → List Card → List (List Card) × List Card
  | 0, melds, remaining => (melds, remaining)
  | fuel + 1, melds, remaining =>
    let r := layoff_pass melds remaining remaining
    if r.2.2 then apply_layoffs_loop fuel r.1 r.2.1 else (r.1, r.2.1)

/-- `apply_layoffs`: lay the defender's unmelded cards off onto the
knocker's melds until no more lay off; returns the updated melds (the
in-place mutation of the meld lists) and the cards still unmelded. -/
def apply_layoffs (knocker_melds : List (List Card))
    (defender_unmelded : List Card) : List (List Card) × List Card :=
  apply_layoffs_loop (defender_unmelded.length + 1) knocker_melds
    defender_unmelded

/-- `score_with_layoffs`.  The copies `[list(m) for m in knocker_melds]`
are the identity on immutable values; the heap model below makes the
aliasing explicit. -/
def score_with_layoffs (knocker_hand defender_hand : List Card)
    (gin_flag : Bool) : Int × String :=
  let kdw := dw_sum (find_best_melds knocker_hand).2
  if gin_flag then ((calculate_deadwood defender_hand : Int) + 25, "gin")
  else
    let remaining :=
      (apply_layoffs (find_best_melds knocker_hand).1
        (find_best_melds defender_hand).2).2
    let ddw := dw_sum remaining
    if ddw ≤ kdw then (-(((kdw - ddw : Nat) : Int) + 25), "undercut")
    else ((ddw : Int) - (kdw : Int), "knock")

/-- The defender's effective deadwood: the point sum of the defender's
unmelded cards remaining after laying off onto the knocker's best melds. -/
def defender_effective_dw (knocker_hand defender_hand : List Card) : Nat :=
  dw_sum
    (apply_layoffs (find_best_melds knocker_hand).1
      (find_best_melds defender_hand).2).2

/-! ## Claim C3 -/

/-- C3: Non-gin scoring with undercut tie-break.  `score_with_layoffs` with
`is_gin=False` compares the knocker's deadwood with the defender's
effective deadwood after layoffs; defender ≤ knocker (equality included)
yields `(-( (knocker_dw - defender_dw) + 25), "undercut")`, otherwise
`(defender_dw - knocker_dw, "knock")`. -/
theorem C3_non_gin_scoring (kh dh : List Card) :
    (defender_effective_dw kh dh ≤ calculate_deadwood kh →
      score_with_layoffs kh dh false =
        (-(((calculate_deadwood kh - defender_effective_dw kh dh : Nat) : Int)
            + 25), "undercut")) ∧
    (calculate_deadwood kh < defender_effective_dw kh dh →
      score_with_layoffs kh dh false =
        ((defender_effective_dw kh dh : Int) - (calculate_deadwood kh : Int),
          "knock")) := by
  constructor
  · intro h
    rw [score_with_layoffs]
    simp only [if_false, Bool.false_eq_true]
    rw [if_pos]
    · rfl
    · exact h
  · intro h
    rw [score_with_layoffs]
    simp only [if_false, Bool.false_eq_true]
    rw [if_neg]
    · rfl
    · exact Nat.not_le.mpr h

theorem C3_non_gin_scoring_witness :
    defender_effective_dw c1_hand [⟨.king, .hearts⟩] ≤ calculate_deadwood c1_hand ∧
    score_with_layoffs c1_hand [⟨.king, .hearts⟩] false =
      (-(((calculate_deadwood c1_hand -
          defender_effective_dw c1_hand [⟨.king, .hearts⟩] : Nat) : Int) + 25),
        "undercut") :=
  ⟨by decide,
    (C3_non_gin_scoring c1_hand [⟨.king, .hearts⟩]).1 (by decide)⟩

/-! ## A heap model of the Python list objects used by `score_with_layoffs`

Python lists are mutable objects; `apply_layoffs` appends to the meld list
objects it is handed.  To state the frame claim (the caller's hand lists and
meld lists are not mutated) we model the store of list objects as a heap of
cells indexed by natural numbers, with `list(m)` copies allocating fresh
cells. -/

/-- The store of card-list objects. -/
abbrev Heap := List (List Card)

/-- Dereference a cell. -/
def hget (hp : Heap) (r : Nat) : List Card :=
  List.getD hp r []

/-- Overwrite a cell. -/
def hset (hp : Heap) (r : Nat) (v : List Card) : Heap :=
  List.set hp r v

/-- Length of the store. -/
def hlen (hp : Heap) : Nat := List.length hp

/-- Allocate one fresh cell per value (the `[list(m) for m in ...]` copy),
returning the new heap and the references. -/
def halloc (hp : Heap) (vs : List (List Card)) : Heap × List Nat :=
  (hp ++ vs, (List.range vs.length).map (fun i => hlen hp + i))

theorem hlen_hset (hp : Heap) (r : Nat) (v : List Card) :
    hlen (hset hp r v) = hlen hp := by
  simp [hlen, hset]

theorem hget_hset_self {hp : Heap} {r : Nat} (h : r < hlen hp) (v : List Card) :
    hget (hset hp r v) r = v := by
  simp [hget, hset, List.getD]
  rw [List.getElem?_set_self (by simpa [hlen] using h)]
  rfl

theorem hget_hset_ne (hp : Heap) {r r' : Nat} (h : r ≠ r') (v : List Card) :
    hget (hset hp r v) r' = hget hp r' := by
  simp [hget, hset, List.getD]
  rw [List.getElem?_set_ne h]

theorem hget_halloc_old {hp : Heap} {r : Nat} (h : r < hlen hp)
    (vs : List (List Card)) : hget (halloc hp vs).1 r = hget hp r := by
  simp [hget, halloc, List.getD]
  rw [List.getElem?_append_left (by simpa [hlen] using h)]

theorem halloc_refs_ge (hp : Heap) (vs : List (List Card)) :
    ∀ r ∈ (halloc hp vs).2, hlen hp ≤ r := by
  intro r hr
  simp [halloc] at hr
  obtain ⟨i, -, rfl⟩ := hr
  omega

theorem halloc_refs_lt (hp : Heap) (vs : List (List Card)) :
    ∀ r ∈ (halloc hp vs).2, r < hlen (halloc hp vs).1 := by
  intro r hr
  simp [halloc, hlen] at hr ⊢
  obtain ⟨i, hi, rfl⟩ := hr
  omega

theorem halloc_refs_nodup (hp : Heap) (vs : List (List Card)) :
    (halloc hp vs).2.Nodup := by
  simp only [halloc]
  refine (List.nodup_range _).map_on ?_
  intro x _ y _ h
  omega

theorem halloc_get (hp : Heap) (vs : List (List Card)) :
    (halloc hp vs).2.map (hget (halloc hp vs).1) = vs := by
  simp only [halloc, List.map_map]
  refine List.ext_getElem (by simp) ?_
  intro i h1 h2
  simp only [List.getElem_map, List.getElem_range, Function.comp]
  simp only [hget, hlen, List.getD]
  rw [List.get?_append_right (by omega)]
  have : List.length hp + i - hp.length = i := by omega
  rw [this]
  rw [List.get?_eq_getElem? _ _, List.getElem?_eq_getElem (by simpa using h2)]
  rfl

/-! ## Heap versions of the layoff routines -/

/-- Heap version of the inner meld loop: append the card to the first meld
object (dereferenced through `refs`) that accepts it, in place. -/
def append_first_layoff_ref (hp : Heap) (card : Card) : List Nat → Option Heap
  | [] => none
  | r :: rest =>
    if can_lay_off card (hget hp r) then some (hset hp r (hget hp r ++ [card]))
    else append_first_layoff_ref hp card rest

/-- Heap version of one snapshot pass. -/
def layoff_pass_ref (hp : Heap) (refs : List Nat) :
    List Card → List Card → Heap × List Card × Bool
  | [], remaining => (hp, remaining, false)
  | card :: snap, remaining =>
    match append_first_layoff_ref hp card refs with
    | some hp' =>
      let r := layoff_pass_ref hp' refs snap (remaining.erase card)
      (r.1, r.2.1, true)
    | none => layoff_pass_ref hp refs snap remaining

/-- Heap version of the `while changed` loop. -/
def apply_layoffs_ref : Nat → Heap → List Nat → List Card → Heap × List Card
  | 0, hp, _, remaining => (hp, remaining)
  | fuel + 1, hp, refs, remaining =>
    let r := layoff_pass_ref hp refs remaining remaining
    if r.2.2 then apply_layoffs_ref fuel r.1 refs r.2.1 else (r.1, r.2.1)

/-- Heap version of `score_with_layoffs`: the two hands are caller-owned
cells; the knocker's best melds are copied into fresh cells and only those
copies are extended by layoffs. -/
def score_with_layoffs_ref (hp : Heap) (kh_ref dh_ref : Nat)
    (gin_flag : Bool) : Heap × (Int × String) :=
  let kdw := dw_sum (find_best_melds (hget hp kh_ref)).2
  if gin_flag then
    (hp, ((calculate_deadwood (hget hp dh_ref) : Int) + 25, "gin"))
  else
    let defender_unmelded := (find_best_melds (hget hp dh_ref)).2
    let alloc := halloc hp (find_best_melds (hget hp kh_ref)).1
    let res := apply_layoffs_ref (defender_unmelded.length + 1) alloc.1
      alloc.2 defender_unmelded
    let ddw := dw_sum res.2
    (res.1,
      if ddw ≤ kdw then (-(((kdw - ddw : Nat) : Int) + 25), "undercut")
      else ((ddw : Int) - (kdw : Int), "knock"))

/-! ## The heap layoff routines refine the pure ones and touch only the
fresh copy cells -/

theorem append_first_layoff_ref_spec (card : Card) :
    ∀ (refs : List Nat) (hp : Heap), refs.Nodup → (∀ r ∈ refs, r < hlen hp) →
      (append_first_layoff card (refs.map (hget hp)) = none →
        append_first_layoff_ref hp card refs = none) ∧
      (∀ melds', append_first_layoff card (refs.map (hget hp)) = some melds' →
        ∃ hp', append_first_layoff_ref hp card refs = some hp' ∧
          hlen hp' = hlen hp ∧ refs.map (hget hp') = melds' ∧
          ∀ r', r' ∉ refs → hget hp' r' = hget hp r') := by
  intro refs
  induction refs with
  | nil =>
    intro hp _ _
    exact ⟨fun _ => rfl, fun melds' h => by simp [append_first_layoff] at h⟩
  | cons r rest ih =>
    intro hp hnd hbound
    have hrlt : r < hlen hp := hbound r (by simp)
    have hrrest : r ∉ rest := (List.nodup_cons.mp hnd).1
    have hrestnd : rest.Nodup := (List.nodup_cons.mp hnd).2
    have hrestbound : ∀ r'' ∈ rest, r'' < hlen hp :=
      fun r'' h => hbound r'' (by simp [h])
    constructor
    · intro hnone
      rw [List.map_cons, append_first_layoff] at hnone
      rw [append_first_layoff_ref]
      split at hnone
      · exact absurd hnone (by simp)
      · next hcant =>
        rw [if_neg hcant]
        split at hnone
        · exact absurd hnone (by simp)
        · next hrec =>
          exact ((ih hp hrestnd hrestbound).1 hrec)
    · intro melds' hsome
      rw [List.map_cons, append_first_layoff] at hsome
      rw [append_first_layoff_ref]
      split at hsome
      · next hcan =>
        rw [Option.some.injEq] at hsome
        rw [if_pos hcan]
        refine ⟨hset hp r (hget hp r ++ [card]), rfl, hlen_hset hp r _, ?_, ?_⟩
        · rw [List.map_cons, hget_hset_self hrlt, ← hsome]
          congr 1
          refine List.map_congr_left ?_
          intro r'' hr''
          exact hget_hset_ne hp (fun he => hrrest (by rw [he]; exact hr'')) _
        · intro r' hr'
          exact hget_hset_ne hp (fun he => hr' (by simp [he])) _
      · next hcant =>
        rw [if_neg hcant]
        split at hsome
        · next rest' hrec =>
          rw [Option.some.injEq] at hsome
          obtain ⟨hp', hhp', hlen', hmap', hframe'⟩ :=
            (ih hp hrestnd hrestbound).2 rest' hrec
          refine ⟨hp', hhp', hlen', ?_, ?_⟩
          · rw [List.map_cons, hmap', ← hsome]
            congr 1
            exact hframe' r hrrest
          · intro r' hr'
            exact hframe' r' (fun h => hr' (by simp [h]))
        · exact absurd hsome (by simp)

theorem layoff_pass_ref_spec :
    ∀ (snap : List Card) (refs : List Nat) (hp : Heap) (remaining : List Card),
      refs.Nodup → (∀ r ∈ refs, r < hlen hp) →
      hlen (layoff_pass_ref hp refs snap remaining).1 = hlen hp ∧
      refs.map (hget (layoff_pass_ref hp refs snap remaining).1) =
        (layoff_pass (refs.map (hget hp)) snap remaining).1 ∧
      (layoff_pass_ref hp refs snap remaining).2 =
        (layoff_pass (refs.map (hget hp)) snap remaining).2 ∧
      ∀ r', r' ∉ refs →
        hget (layoff_pass_ref hp refs snap remaining).1 r' = hget hp r' := by
  intro snap
  induction snap with
  | nil =>
    intro refs hp remaining _ _
    exact ⟨rfl, rfl, rfl, fun r' _ => rfl⟩
  | cons card snap' ih =>
    intro refs hp remaining hnd hbound
    cases hpure : append_first_layoff card (refs.map (hget hp)) with
    | none =>
      have href := (append_first_layoff_ref_spec card refs hp hnd hbound).1 hpure
      rw [layoff_pass_ref, layoff_pass, hpure, href]
      exact ih refs hp remaining hnd hbound
    | some melds' =>
      obtain ⟨hp', hhp', hlen', hmap', hframe'⟩ :=
        (append_first_layoff_ref_spec card refs hp hnd hbound).2 melds' hpure
      rw [layoff_pass_ref, layoff_pass, hpure, hhp']
      dsimp only
      have hbound' : ∀ r ∈ refs, r < hlen hp' := fun r h => hlen' ▸ hbound r h
      obtain ⟨ih1, ih2, ih3, ih4⟩ :=
        ih refs hp' (remaining.erase card) hnd hbound'
      rw [hmap'] at ih2 ih3
      refine ⟨by rw [ih1, hlen'], by rw [ih2], ?_, ?_⟩
      · rw [Prod.ext_iff] at ih3 ⊢
        exact ⟨ih3.1, rfl⟩
      · intro r' hr'
        rw [ih4 r' hr', hframe' r' hr']

theorem apply_layoffs_ref_spec :
    ∀ (fuel : Nat) (hp : Heap) (refs : List Nat) (remaining : List Card),
      refs.Nodup → (∀ r ∈ refs, r < hlen hp) →
      hlen (apply_layoffs_ref fuel hp refs remaining).1 = hlen hp ∧
      refs.map (hget (apply_layoffs_ref fuel hp refs remaining).1) =
        (apply_layoffs_loop fuel (refs.map (hget hp)) remaining).1 ∧
      (apply_layoffs_ref fuel hp refs remaining).2 =
        (apply_layoffs_loop fuel (refs.map (hget hp)) remaining).2 ∧
      ∀ r', r' ∉ refs →
        hget (apply_layoffs_ref fuel hp refs remaining).1 r' = hget hp r' := by
  intro fuel
  induction fuel with
  | zero =>
    intro hp refs remaining _ _
    exact ⟨rfl, rfl, rfl, fun r' _ => rfl⟩
  | succ fuel' ih =>
    intro hp refs remaining hnd hbound
    rw [apply_layoffs_ref, apply_layoffs_loop]
    obtain ⟨p1, p2, p3, p4⟩ := layoff_pass_ref_spec remaining refs hp remaining
      hnd hbound
    rw [p3]
    split
    · next hflag =>
      have hbound' :
          ∀ r ∈ refs, r < hlen (layoff_pass_ref hp refs remaining remaining).1 :=
        fun r h => p1 ▸ hbound r h
      obtain ⟨ih1, ih2, ih3, ih4⟩ := ih (layoff_pass_ref hp refs remaining
        remaining).1 refs (layoff_pass (refs.map (hget hp)) remaining
        remaining).2.1 hnd hbound'
      rw [p2] at ih2 ih3
      constructor
      · rw [ih1, p1]
      constructor
      · rw [ih2]
      constructor
      · rw [ih3]
      · intro r' hr'
        rw [ih4 r' hr', p4 r' hr']
    · exact ⟨p1, p2, rfl, p4⟩

theorem score_with_layoffs_ref_spec (hp : Heap) (kh dh : Nat) (g : Bool) :
    (score_with_layoffs_ref hp kh dh g).2 =
      score_with_layoffs (hget hp kh) (hget hp dh) g ∧
    ∀ r, r < hlen hp →
      hget (score_with_layoffs_ref hp kh dh g).1 r = hget hp r := by
  cases g with
  | true => exact ⟨rfl, fun r _ => rfl⟩
  | false =>
    rw [score_with_layoffs_ref, score_with_layoffs]
    simp only [if_false, Bool.false_eq_true]
    have hnd := halloc_refs_nodup hp (find_best_melds (hget hp kh)).1
    have hbound := halloc_refs_lt hp (find_best_melds (hget hp kh)).1
    have hge := halloc_refs_ge hp (find_best_melds (hget hp kh)).1
    obtain ⟨a1, a2, a3, a4⟩ := apply_layoffs_ref_spec
      ((find_best_melds (hget hp dh)).2.length + 1)
      (halloc hp (find_best_melds (hget hp kh)).1).1
      (halloc hp (find_best_melds (hget hp kh)).1).2
      (find_best_melds (hget hp dh)).2 hnd hbound
    rw [halloc_get] at a3
    constructor
    · rw [a3]
      rfl
    · intro r hr
      have hnotref : r ∉ (halloc hp (find_best_melds (hget hp kh)).1).2 :=
        fun hmem => absurd (hge r hmem) (by omega)
      rw [a4 r hnotref, hget_halloc_old hr]

/-! ## Claim C9 -/

/-- C9: Scoring does not mutate its inputs.  In the heap model of Python's
mutable lists, `score_with_layoffs` leaves every pre-existing cell — in
particular both hand lists and any meld list the caller holds — unchanged
(layoffs extend only the freshly allocated copies), and therefore a second
identical call returns the identical (points, result kind) pair. -/
theorem C9_scoring_no_mutation (hp : Heap) (kh dh : Nat) (g : Bool)
    (hkh : kh < hlen hp) (hdh : dh < hlen hp) :
    (∀ r, r < hlen hp →
      hget (score_with_layoffs_ref hp kh dh g).1 r = hget hp r) ∧
    (score_with_layoffs_ref (score_with_layoffs_ref hp kh dh g).1 kh dh g).2 =
      (score_with_layoffs_ref hp kh dh g).2 ∧
    (score_with_layoffs_ref hp kh dh g).2 =
      score_with_layoffs (hget hp kh) (hget hp dh) g := by
  obtain ⟨hres, hframe⟩ := score_with_layoffs_ref_spec hp kh dh g
  refine ⟨hframe, ?_, hres⟩
  obtain ⟨hres2, -⟩ :=
    score_with_layoffs_ref_spec (score_with_layoffs_ref hp kh dh g).1 kh dh g
  rw [hres2, hres, hframe kh hkh, hframe dh hdh]

theorem C9_scoring_no_mutation_witness :
    0 < hlen [c1_hand, [(⟨.king, .hearts⟩ : Card)]] ∧
    (score_with_layoffs_ref
        (score_with_layoffs_ref [c1_hand, [⟨.king, .hearts⟩]] 0 1 false).1
        0 1 false).2 =
      (score_with_layoffs_ref [c1_hand, [⟨.king, .hearts⟩]] 0 1 false).2 :=
  ⟨by decide,
    (C9_scoring_no_mutation [c1_hand, [⟨.king, .hearts⟩]] 0 1 false
      (by decide) (by decide)).2.1⟩

/-! ## engine/game.py : phases, state, engine -/

/-- `GamePhase` (END is spelled `ended` here; `end` is a Lean keyword). -/
inductive GamePhase
  | draw
  | discard
  | knock
  | ended
deriving DecidableEq, Repr

/-- `DrawChoice` enum. -/
inductive DrawChoice
  | deck
  | discard
deriving DecidableEq, Repr

/-- A draw decision as returned by a bot: `str` or `DrawChoice`
(the two types `_execute_draw` accepts). -/
inductive DrawInput
  | str (s : String)
  | choice (c : DrawChoice)
deriving DecidableEq, Repr

/-- The distinct `InvalidMoveError` messages raised by `_execute_draw` and
`_execute_discard`. -/
inductive MoveErr
  | notDrawPhase
  | notYourTurn
  | invalidDrawChoice (s : String)
  | emptyDeck
  | emptyDiscard
  | notDiscardPhase
  | wrongHandSize (n : Nat)
  | cardNotInHand (c : Card)
  | discardJustDrawn
deriving DecidableEq, Repr

/-- `GameState`.  The two entries of the Python `hands` list are the two
fields `hand0`/`hand1`; `Deck._cards` is `deck` with the top of the deck at
the END of the list (`pop()` removes the last element), and the top of the
discard pile is likewise its last element. -/
structure GState where
  deck : List Card
  hand0 : List Card
  hand1 : List Card
  discard_pile : List Card
  current_player : Nat
  phase : GamePhase
  dealer : Nat
  winner : Option Nat
  score : Int
  result_type : Option String
deriving DecidableEq, Repr

/-- `self.hands[player]` (only 0 and 1 are ever passed). -/
def GState.hand (s : GState) (p : Nat) : List Card :=
  if p = 0 then s.hand0 else s.hand1

/-- `self.hands[player] = h`. -/
def GState.set_hand (s : GState) (p : Nat) (h : List Card) : GState :=
  if p = 0 then { s with hand0 := h } else { s with hand1 := h }

/-- `Deck.draw`: pop the top (last) card; fails on an empty deck. -/
def deck_draw (cards : List Card) : Option (Card × List Card) :=
  match cards.getLast? with
  | none => none
  | some c => some (c, cards.dropLast)

/-- `Deck.deal(n)`: pop `n` cards (`[pop() for _ in range(n)]`, so the
dealt cards come out top-first); fails if fewer than `n` remain, before
removing anything. -/
def deck_deal (cards : List Card) (n : Nat) : Option (List Card × List Card) :=
  if cards.length < n then none
  else some ((cards.drop (cards.length - n)).reverse, cards.take (cards.length - n))

/-- `GameState.setup`: fresh shuffled deck (the permutation the
caller-supplied rng produces is the `shuffled` argument), deal 10 to the
non-dealer then 10 to the dealer, flip one card to the discard pile,
non-dealer to act, Draw phase.  `none` models the `ValueError`/`IndexError`
of dealing from a too-short deck, impossible for a 52-card deck. -/
def gstate_setup (dealer : Nat) (shuffled : List Card) : Option GState :=
  let non_dealer := 1 - dealer
  match deck_deal shuffled 10 with
  | none => none
  | some (nd_hand, deck1) =>
    match deck_deal deck1 10 with
    | none => none
    | some (d_hand, deck2) =>
      match deck_draw deck2 with
      | none => none
      | some (flip, deck3) =>
        let s0 : GState :=
          { deck := deck3, hand0 := [], hand1 := [], discard_pile := [flip],
            current_player := non_dealer, phase := .draw, dealer := dealer,
            winner := none, score := 0, result_type := none }
        some ((s0.set_hand non_dealer nd_hand).set_hand dealer d_hand)

/-- `PlayerView`: the restricted projection handed to bots. -/
structure PlayerView where
  hand : List Card
  discard_pile : List Card
  deck_size : Nat
  phase : GamePhase
  is_my_turn : Bool
  opponent_hand_size : Nat
deriving DecidableEq, Repr

/-- `GameState.get_player_view`. -/
def get_player_view (s : GState) (player : Nat) : PlayerView :=
  { hand := s.hand player,
    discard_pile := s.discard_pile,
    deck_size := s.deck.length,
    phase := s.phase,
    is_my_turn := s.current_player == player,
    opponent_hand_size := (s.hand (1 - player)).length }

/-- `GameEngine`'s mutable state: the game state plus the
`_drawn_from_discard` marker. -/
structure Engine where
  state : GState
  drawn_from_discard : Option Card
deriving DecidableEq, Repr

/-- `DrawChoice(choice.lower())`: parse a string draw choice,
case-insensitively; anything else is an invalid draw choice. -/
def parse_draw_choice : DrawInput → Except MoveErr DrawChoice
  | .choice c => .ok c
  | .str s =>
    if s.toLower = "deck" then .ok .deck
    else if s.toLower = "discard" then .ok .discard
    else .error (.invalidDrawChoice s)

/-- `GameEngine._execute_draw`.  Raises are `Except.error`s carrying the
engine state as it is at the raise; the Python method performs all its
checks before its first mutation, and its mutations (hand append, marker
update, phase change) have no raise between them. -/
def execute_draw (e : Engine) (player : Nat) (input : DrawInput) :
    Except (MoveErr × Engine) Engine :=
  if e.state.phase ≠ .draw then .error (.notDrawPhase, e)
  else if e.state.current_player ≠ player then .error (.notYourTurn, e)
  else
    match parse_draw_choice input with
    | .error err => .error (err, e)
    | .ok .deck =>
      match deck_draw e.state.deck with
      | none => .error (.emptyDeck, e)
      | some (card, deck') =>
        .ok { state :=
                { e.state.set_hand player (e.state.hand player ++ [card]) with
                  deck := deck', phase := .discard },
              drawn_from_discard := none }
    | .ok .discard =>
      match e.state.discard_pile.getLast? with
      | none => .error (.emptyDiscard, e)
      | some card =>
        .ok { state :=
                { e.state.set_hand player (e.state.hand player ++ [card]) with
                  discard_pile := e.state.discard_pile.dropLast,
                  phase := .discard },
              drawn_from_discard := some card }

/-- `GameEngine._execute_discard`: all five checks precede the mutations.
`list.remove` removes the first matching occurrence (`List.erase`). -/
def execute_discard (e : Engine) (player : Nat) (card : Card) :
    Except (MoveErr × Engine) Engine :=
  if e.state.phase ≠ .discard then .error (.notDiscardPhase, e)
  else if e.state.current_player ≠ player then .error (.notYourTurn, e)
  else if (e.state.hand player).length ≠ 11 then
    .error (.wrongHandSize (e.state.hand player).length, e)
  else if card ∉ e.state.hand player then .error (.cardNotInHand card, e)
  else if e.drawn_from_discard = some card then .error (.discardJustDrawn, e)
  else
    .ok { state :=
            { e.state.set_hand player ((e.state.hand player).erase card) with
              discard_pile := e.state.discard_pile ++ [card], phase := .knock },
          drawn_from_discard := e.drawn_from_discard }

/-- `GameResult`. -/
structure GameResult where
  winner : Option Nat
  score : Int
  result_type : String
  knocker : Option Nat
deriving DecidableEq, Repr

/-- `GameEngine._execute_knock`: score (with layoffs), flip the win to the
opponent on an undercut, record everything on the state, End phase. -/
def execute_knock (e : Engine) (player : Nat) : Engine × GameResult :=
  let opponent := 1 - player
  let ps := score_with_layoffs (e.state.hand player) (e.state.hand opponent)
    (is_gin (e.state.hand player))
  let winner := if ps.2 = "undercut" then opponent else player
  let score := if ps.2 = "undercut" then |ps.1| else ps.1
  ({ e with state :=
      { e.state with
        phase := .ended
        winner := some winner
        score := score
        result_type := some ps.2 } },
   { winner := some winner
     score := score
     result_type := ps.2
     knocker := some player })

/-! ## Bots and the game loop -/

/-- A bot: the three required decisions plus the two optional lifecycle
hooks (no-op defaults), each threading the bot's private state `σ` so that
stateful Python bot objects are covered. -/
structure Bot (σ : Type) where
  draw_decision : σ → PlayerView → σ × DrawInput
  discard_decision : σ → PlayerView → σ × Card
  knock_decision : σ → PlayerView → σ × Bool
  on_game_start : σ → Nat → PlayerView → σ := fun st _ _ => st
  on_turn_end : σ → PlayerView → σ := fun st _ => st

/-- `bots[player].draw_decision(view)`. -/
def bots_draw {σ0 σ1 : Type} (b0 : Bot σ0) (b1 : Bot σ1) (p : Nat)
    (s0 : σ0) (s1 : σ1) (v : PlayerView) : (σ0 × σ1) × DrawInput :=
  if p = 0 then
    let r := b0.draw_decision s0 v
    ((r.1, s1), r.2)
  else
    let r := b1.draw_decision s1 v
    ((s0, r.1), r.2)

/-- `bots[player].discard_decision(view)`. -/
def bots_discard {σ0 σ1 : Type} (b0 : Bot σ0) (b1 : Bot σ1) (p : Nat)
    (s0 : σ0) (s1 : σ1) (v : PlayerView) : (σ0 × σ1) × Card :=
  if p = 0 then
    let r := b0.discard_decision s0 v
    ((r.1, s1), r.2)
  else
    let r := b1.discard_decision s1 v
    ((s0, r.1), r.2)

/-- `bots[player].knock_decision(view)`. -/
def bots_knock {σ0 σ1 : Type} (b0 : Bot σ0) (b1 : Bot σ1) (p : Nat)
    (s0 : σ0) (s1 : σ1) (v : PlayerView) : (σ0 × σ1) × Bool :=
  if p = 0 then
    let r := b0.knock_decision s0 v
    ((r.1, s1), r.2)
  else
    let r := b1.knock_decision s1 v
    ((s0, r.1), r.2)

/-- Observable events of one loop iteration: the state right after an
executed draw, the state right after an executed discard, and the hand with
which `knock_decision` is queried. -/
inductive GEvent
  | draw_done (s : GState)
  | discard_done (s : GState)
  | knock_query (hand : List Card)
deriving DecidableEq, Repr

/-- The state snapshot an event carries, if any. -/
def event_state : GEvent → Option GState
  | .draw_done s => some s
  | .discard_done s => some s
  | .knock_query _ => none

/-- How one iteration of the `while` loop of `play_game` ends. -/
inductive TurnOut (σ0 σ1 : Type)
  | halted (err : MoveErr) (e : Engine)
  | finished (res : GameResult) (e : Engine)
  | next (e : Engine) (s0 : σ0) (s1 : σ1)

/-- One iteration of the `while self.state.phase != GamePhase.END` loop of
`play_game`: draw decision and execution, discard decision and execution,
deck-exhaustion check, conditional knock phase, turn-end notifications,
player switch.  An `InvalidMoveError` (from either execute step) halts the
game with the engine as the raise left it. -/
def run_turn {σ0 σ1 : Type} (b0 : Bot σ0) (b1 : Bot σ1) (e : Engine)
    (s0 : σ0) (s1 : σ1) : TurnOut σ0 σ1 × List GEvent :=
  let player := e.state.current_player
  let dr := bots_draw b0 b1 player s0 s1 (get_player_view e.state player)
  match execute_draw e player dr.2 with
  | .error (err, e') => (.halted err e', [])
  | .ok e1 =>
    let dc := bots_discard b0 b1 player dr.1.1 dr.1.2
      (get_player_view e1.state player)
    match execute_discard e1 player dc.2 with
    | .error (err, e') => (.halted err e', [.draw_done e1.state])
    | .ok e2 =>
      if e2.state.deck.length < 2 then
        (.finished
          { winner := none
            score := 0
            result_type := "draw"
            knocker := none }
          { e2 with state := { e2.state with phase := .ended } },
         [.draw_done e1.state, .discard_done e2.state])
      else if can_knock (e2.state.hand player) then
        let e3 : Engine := { e2 with state := { e2.state with phase := .knock } }
        let kn := bots_knock b0 b1 player dc.1.1 dc.1.2
          (get_player_view e3.state player)
        if kn.2 then
          let r := execute_knock e3 player
          (.finished r.2 r.1,
           [.draw_done e1.state, .discard_done e2.state,
            .knock_query (e3.state.hand player)])
        else
          let s0' := b0.on_turn_end kn.1.1 (get_player_view e3.state 0)
          let s1' := b1.on_turn_end kn.1.2 (get_player_view e3.state 1)
          (.next
            { e3 with state :=
                { e3.state with
                  current_player := 1 - player
                  phase := .draw } } s0' s1',
           [.draw_done e1.state, .discard_done e2.state,
            .knock_query (e3.state.hand player)])
      else
        let s0' := b0.on_turn_end dc.1.1 (get_player_view e2.state 0)
        let s1' := b1.on_turn_end dc.1.2 (get_player_view e2.state 1)
        (.next
          { e2 with state :=
              { e2.state with
                current_player := 1 - player
                phase := .draw } } s0' s1',
         [.draw_done e1.state, .discard_done e2.state])

/-- How a full run of `play_game` ends.  `out_of_fuel` marks runs longer
than the fuel bound; the Python loop itself has no such bound (two bots that
forever draw from the discard pile never terminate it). -/
inductive GameOutcome
  | result (r : GameResult)
  | halted (err : MoveErr)
  | out_of_fuel
deriving DecidableEq, Repr

/-- The `while` loop of `play_game`, with fuel, accumulating the events and
returning the final engine. -/
def game_loop {σ0 σ1 : Type} (b0 : Bot σ0) (b1 : Bot σ1) :
    Nat → Engine → σ0 → σ1 → List GEvent →
    GameOutcome × Engine × List GEvent
  | 0, e, _, _, acc => (.out_of_fuel, e, acc)
  | fuel + 1, e, s0, s1, acc =>
    if e.state.phase = .ended then
      (.result
        { winner := none
          score := 0
          result_type := "draw"
          knocker := none }, e, acc)
    else
      match run_turn b0 b1 e s0 s1 with
      | (.halted err e', evs) => (.halted err, e', acc ++ evs)
      | (.finished r e', evs) => (.result r, e', acc ++ evs)
      | (.next e' s0' s1', evs) => game_loop b0 b1 fuel e' s0' s1' (acc ++ evs)

/-- `GameEngine.play_game`: set up (with the caller-supplied rng's
permutation), clear the drawn-from-discard marker, fire `on_game_start`,
and loop. -/
def play_game {σ0 σ1 : Type} (b0 : Bot σ0) (b1 : Bot σ1) (dealer : Nat)
    (shuffled : List Card) (s0 : σ0) (s1 : σ1) (fuel : Nat) :
    Option (GameOutcome × Engine × List GEvent) :=
  match gstate_setup dealer shuffled with
  | none => none
  | some st =>
    let s0' := b0.on_game_start s0 0 (get_player_view st 0)
    let s1' := b1.on_game_start s1 1 (get_player_view st 1)
    some (game_loop b0 b1 fuel { state := st, drawn_from_discard := none }
      s0' s1' [])

/-- Modelled from the spec: the caller-supplied random source
(`random.Random(seed)` is the Python standard library, not code of this
repository).  A deterministic pseudo-random permutation of the fresh
52-card deck derived from the seed: a linear-congruential generator driving
a draw-without-replacement shuffle. -/
def lcg_next (x : Nat) : Nat :=
  (x * 6364136223846793005 + 1442695040888963407) % 2 ^ 64

/-- Modelled from the spec: draw-without-replacement shuffle driven by the
linear-congruential stream. -/
def perm_from_seed : Nat → Nat → List Card → List Card
  | _, 0, _ => []
  | x, fuel + 1, cards =>
    if h : cards.length = 0 then []
    else
      (cards.getD (x % cards.length) ⟨.ace, .clubs⟩) ::
        perm_from_seed (lcg_next x) fuel (cards.eraseIdx (x % cards.length))

/-- Modelled from the spec: the deck order produced by a random source
constructed from `seed`. -/
def shuffled_deck (seed : Nat) : List Card :=
  perm_from_seed (lcg_next seed) 52 full_deck

/-! ## Invalid moves leave the state untouched -/

theorem execute_draw_error_eq {e : Engine} {p : Nat} {input : DrawInput}
    {err : MoveErr} {e' : Engine}
    (h : execute_draw e p input = .error (err, e')) : e' = e := by
  rw [execute_draw] at h
  split at h
  · injection h with h1
    injection h1 with _ h2
    exact h2.symm
  · split at h
    · injection h with h1
      injection h1 with _ h2
      exact h2.symm
    · split at h
      · injection h with h1
        injection h1 with _ h2
        exact h2.symm
      · split at h
        · injection h with h1
          injection h1 with _ h2
          exact h2.symm
        · exact absurd h (by simp)
      · split at h
        · injection h with h1
          injection h1 with _ h2
          exact h2.symm
        · exact absurd h (by simp)

theorem execute_discard_error_eq {e : Engine} {p : Nat} {card : Card}
    {err : MoveErr} {e' : Engine}
    (h : execute_discard e p card = .error (err, e')) : e' = e := by
  rw [execute_discard] at h
  split at h
  · injection h with h1
    injection h1 with _ h2
    exact h2.symm
  · split at h
    · injection h with h1
      injection h1 with _ h2
      exact h2.symm
    · split at h
      · injection h with h1
        injection h1 with _ h2
        exact h2.symm
      · split at h
        · injection h with h1
          injection h1 with _ h2
          exact h2.symm
        · split at h
          · injection h with h1
            injection h1 with _ h2
            exact h2.symm
          · exact absurd h (by simp)

/-! ## Claim C6 -/

/-- C6: Invalid-move atomicity.  Whenever `_execute_draw` or
`_execute_discard` raises an `InvalidMoveError`, the engine state carried at
the raise — hands, discard pile, deck, phase, current player and the
drawn-from-discard marker — is exactly the state the call was entered with:
every check precedes every mutation, so no partial mutation is left
behind. -/
theorem C6_invalid_move_atomicity (e : Engine) (p : Nat) :
    (∀ (input : DrawInput) (err : MoveErr) (e' : Engine),
      execute_draw e p input = .error (err, e') → e' = e) ∧
    (∀ (card : Card) (err : MoveErr) (e' : Engine),
      execute_discard e p card = .error (err, e') → e' = e) :=
  ⟨fun _ _ _ h => execute_draw_error_eq h,
   fun _ _ _ h => execute_discard_error_eq h⟩

/-- A concrete mid-game engine state: player 0 to draw, holding ten cards,
two cards in the deck, one in the discard pile. -/
def sample_engine : Engine :=
  { state :=
      { deck := [⟨.two, .clubs⟩, ⟨.three, .clubs⟩]
        hand0 := [⟨.ace, .hearts⟩, ⟨.two, .hearts⟩, ⟨.three, .hearts⟩,
          ⟨.four, .hearts⟩, ⟨.five, .hearts⟩, ⟨.six, .hearts⟩,
          ⟨.seven, .hearts⟩, ⟨.eight, .hearts⟩, ⟨.nine, .hearts⟩,
          ⟨.king, .spades⟩]
        hand1 := [⟨.ace, .diamonds⟩, ⟨.two, .diamonds⟩, ⟨.three, .diamonds⟩,
          ⟨.four, .diamonds⟩, ⟨.five, .diamonds⟩, ⟨.six, .diamonds⟩,
          ⟨.seven, .diamonds⟩, ⟨.eight, .diamonds⟩, ⟨.nine, .diamonds⟩,
          ⟨.ten, .diamonds⟩]
        discard_pile := [⟨.queen, .clubs⟩]
        current_player := 0
        phase := .draw
        dealer := 0
        winner := none
        score := 0
        result_type := none }
    drawn_from_discard := none }

theorem C6_invalid_move_atomicity_witness :
    execute_draw sample_engine 1 (.choice .deck) =
      .error (.notYourTurn, sample_engine) ∧ sample_engine = sample_engine :=
  ⟨by decide,
   (C6_invalid_move_atomicity sample_engine 1).1 (.choice .deck) .notYourTurn
     sample_engine (by decide)⟩

/-! ## Claim C5 -/

/-- C5: Discard-after-pickup rule.  If the recorded just-drawn-from-discard
card equals the card a player attempts to discard (all earlier checks
passing), `_execute_discard` rejects the move with the dedicated error and,
by atomicity, leaves the state unchanged; and a draw from the deck clears
the recorded marker, so a deck-drawn card is not subject to the
restriction. -/
theorem C5_discard_after_pickup (e : Engine) (p : Nat) (card : Card) :
    (e.state.phase = .discard → e.state.current_player = p →
      (e.state.hand p).length = 11 → card ∈ e.state.hand p →
      e.drawn_from_discard = some card →
      execute_discard e p card = .error (.discardJustDrawn, e)) ∧
    (∀ e', execute_draw e p (.choice .deck) = .ok e' →
      e'.drawn_from_discard = none) := by
  constructor
  · intro h1 h2 h3 h4 h5
    rw [execute_discard, if_neg (by simp [h1]), if_neg (by simp [h2]),
      if_neg (by simp [h3]), if_neg (by simp [h4]), if_pos h5]
  · intro e' h
    rw [execute_draw] at h
    split at h
    · exact absurd h (by simp)
    · split at h
      · exact absurd h (by simp)
      · split at h
        · exact absurd h (by simp)
        · split at h
          · exact absurd h (by simp)
          · injection h with h1
            rw [← h1]
        · exact absurd h (by simp [parse_draw_choice] at *)

theorem C5_discard_after_pickup_witness :
    (({ sample_engine with
        state := { sample_engine.state with
          phase := .discard
          hand0 := sample_engine.state.hand0 ++ [⟨.queen, .clubs⟩] }
        drawn_from_discard := some ⟨.queen, .clubs⟩ } : Engine).state.phase
        = .discard) ∧
    execute_discard
      { sample_engine with
        state := { sample_engine.state with
          phase := .discard
          hand0 := sample_engine.state.hand0 ++ [⟨.queen, .clubs⟩] }
        drawn_from_discard := some ⟨.queen, .clubs⟩ } 0 ⟨.queen, .clubs⟩ =
      .error (.discardJustDrawn,
        { sample_engine with
          state := { sample_engine.state with
            phase := .discard
            hand0 := sample_engine.state.hand0 ++ [⟨.queen, .clubs⟩] }
          drawn_from_discard := some ⟨.queen, .clubs⟩ }) :=
  ⟨by decide,
   (C5_discard_after_pickup _ 0 ⟨.queen, .clubs⟩).1 (by decide) (by decide)
     (by decide) (by decide) (by decide)⟩

/-! ## Card conservation -/

/-- The multiset union of both hands, the discard pile and the deck is
exactly the 52-card universe. -/
def conserved (s : GState) : Prop :=
  ((s.hand 0 : Multiset Card) + (s.hand 1 : Multiset Card) +
    (s.discard_pile : Multiset Card) + (s.deck : Multiset Card)) =
    (full_deck : Multiset Card)

theorem deck_draw_multiset {cards rest : List Card} {c : Card}
    (h : deck_draw cards = some (c, rest)) :
    (cards : Multiset Card) = c ::ₘ (rest : Multiset Card) := by
  rw [deck_draw] at h
  split at h
  · exact absurd h (by simp)
  · next c' hlast =>
    rw [Option.some.injEq, Prod.mk.injEq] at h
    obtain ⟨hc, hrest⟩ := h
    have hne : cards ≠ [] := by
      intro hnil
      rw [hnil] at hlast
      simp at hlast
    have hsplit := List.dropLast_append_getLast hne
    have hc' : cards.getLast hne = c := by
      rw [List.getLast?_eq_getLast cards hne] at hlast
      injection hlast with h2
      rw [h2, hc]
    calc (cards : Multiset Card)
        = ((cards.dropLast ++ [cards.getLast hne] : List Card) : Multiset Card) := by
          rw [hsplit]
      _ = (cards.dropLast : Multiset Card) +
            ([cards.getLast hne] : List Card) := rfl
      _ = c ::ₘ (rest : Multiset Card) := by
          rw [hc', ← hrest]
          simp [Multiset.singleton_add]
          exact add_comm _ _

theorem deck_deal_multiset {cards dealt rest : List Card} {n : Nat}
    (h : deck_deal cards n = some (dealt, rest)) :
    (cards : Multiset Card) = (dealt : Multiset Card) + (rest : Multiset Card) := by
  rw [deck_deal] at h
  split at h
  · exact absurd h (by simp)
  · rw [Option.some.injEq, Prod.mk.injEq] at h
    obtain ⟨hd, hr⟩ := h
    calc (cards : Multiset Card)
        = ((cards.take (cards.length - n) ++ cards.drop (cards.length - n) :
            List Card) : Multiset Card) := by rw [List.take_append_drop]
      _ = (cards.take (cards.length - n) : Multiset Card) +
            (cards.drop (cards.length - n) : Multiset Card) := rfl
      _ = (dealt : Multiset Card) + (rest : Multiset Card) := by
          rw [← hd, ← hr, Multiset.coe_reverse]
          exact add_comm _ _

theorem set_hand_fields (s : GState) (p : Nat) (h : List Card) :
    ((s.set_hand p h).hand 0 = (if p = 0 then h else s.hand0) ∧
     (s.set_hand p h).hand 1 = (if p = 0 then s.hand1 else h)) ∧
    (s.set_hand p h).deck = s.deck ∧
    (s.set_hand p h).discard_pile = s.discard_pile ∧
    (s.set_hand p h).dealer = s.dealer ∧
    (s.set_hand p h).current_player = s.current_player ∧
    (s.set_hand p h).phase = s.phase := by
  rw [GState.set_hand]
  split <;> simp_all [GState.hand]

theorem hand_pair (s : GState) (p : Nat) :
    (p = 0 ∧ s.hand p = s.hand0 ∧ 1 - p = 1 ∧ s.hand (1 - p) = s.hand1) ∨
    (p ≠ 0 ∧ s.hand p = s.hand1 ∧ 1 - p = 0 ∧ s.hand (1 - p) = s.hand0) := by
  rcases Nat.eq_zero_or_pos p with h0 | hpos
  · subst h0
    exact Or.inl ⟨rfl, rfl, rfl, rfl⟩
  · have h1p : 1 - p = 0 := by omega
    refine Or.inr ⟨by omega, ?_, h1p, ?_⟩
    · rw [GState.hand, if_neg (by omega)]
    · rw [h1p]
      rfl

theorem setup_conserved {dealer : Nat} {shuffled : List Card}
    (hsh : shuffled.Perm full_deck) {st : GState}
    (h : gstate_setup dealer shuffled = some st) : conserved st := by
  rw [gstate_setup] at h
  split at h
  · exact absurd h (by simp)
  · next nd_hand deck1 hdeal1 =>
    split at h
    · exact absurd h (by simp)
    · next d_hand deck2 hdeal2 =>
      split at h
      · exact absurd h (by simp)
      · next flip deck3 hdraw =>
        rw [Option.some.injEq] at h
        have hms : (shuffled : Multiset Card) =
            (nd_hand : Multiset Card) + (d_hand : Multiset Card) +
              (flip ::ₘ (deck3 : Multiset Card)) := by
          rw [deck_deal_multiset hdeal1, deck_deal_multiset hdeal2,
            deck_draw_multiset hdraw]
          exact (add_assoc _ _ _).symm
        have hfull : (shuffled : Multiset Card) = (full_deck : Multiset Card) :=
          Multiset.coe_eq_coe.mpr hsh
        by_cases hd : dealer = 0
        · subst hd
          have e0 : st.hand 0 = d_hand := by rw [← h]; rfl
          have e1 : st.hand 1 = nd_hand := by rw [← h]; rfl
          have e2 : st.discard_pile = [flip] := by rw [← h]; rfl
          have e3 : st.deck = deck3 := by rw [← h]; rfl
          rw [conserved, e0, e1, e2, e3, ← hfull, hms, ← Multiset.singleton_add]
          simp only [Multiset.coe_singleton]
          abel
        · have hnd : 1 - dealer = 0 := by rw [Nat.sub_eq_zero_iff_le]; omega
          rw [hnd] at h
          have e0 : st.hand 0 = nd_hand := by
            rw [← h, GState.hand, if_pos rfl, GState.set_hand, if_neg hd]
            rfl
          have e1 : st.hand 1 = d_hand := by
            rw [← h, GState.hand, if_neg (by omega : (1 : Nat) ≠ 0),
              GState.set_hand, if_neg hd]
          have e2 : st.discard_pile = [flip] := by
            rw [← h, GState.set_hand, if_neg hd]
            rfl
          have e3 : st.deck = deck3 := by
            rw [← h, GState.set_hand, if_neg hd]
            rfl
          rw [conserved, e0, e1, e2, e3, ← hfull, hms, ← Multiset.singleton_add]
          simp only [Multiset.coe_singleton]
          abel

theorem coe_append (l1 l2 : List Card) :
    ((l1 ++ l2 : List Card) : Multiset Card) =
      (l1 : Multiset Card) + (l2 : Multiset Card) := rfl

theorem coe_cons (a : Card) (l : List Card) :
    ((a :: l : List Card) : Multiset Card) = a ::ₘ (l : Multiset Card) := rfl

/-! ## Each executed action preserves conservation -/

theorem execute_draw_ok {e : Engine} {p : Nat} {input : DrawInput} {e1 : Engine}
    (h : execute_draw e p input = .ok e1) :
    (∃ card deck',
      deck_draw e.state.deck = some (card, deck') ∧
      e1.state = { e.state.set_hand p (e.state.hand p ++ [card]) with
                   deck := deck', phase := .discard } ∧
      e1.drawn_from_discard = none) ∨
    (∃ card,
      e.state.discard_pile.getLast? = some card ∧
      e1.state = { e.state.set_hand p (e.state.hand p ++ [card]) with
                   discard_pile := e.state.discard_pile.dropLast,
                   phase := .discard } ∧
      e1.drawn_from_discard = some card) := by
  rw [execute_draw] at h
  split at h
  · exact absurd h (by simp)
  · split at h
    · exact absurd h (by simp)
    · split at h
      · exact absurd h (by simp)
      · split at h
        · exact absurd h (by simp)
        · next card deck' hdraw =>
          injection h with h1
          exact Or.inl ⟨card, deck', hdraw, by rw [← h1], by rw [← h1]⟩
      · split at h
        · exact absurd h (by simp)
        · next card hlast =>
          injection h with h1
          exact Or.inr ⟨card, hlast, by rw [← h1], by rw [← h1]⟩

theorem execute_discard_ok {e : Engine} {p : Nat} {card : Card} {e1 : Engine}
    (h : execute_discard e p card = .ok e1) :
    card ∈ e.state.hand p ∧
    e1.state = { e.state.set_hand p ((e.state.hand p).erase card) with
                 discard_pile := e.state.discard_pile ++ [card],
                 phase := .knock } ∧
    e1.drawn_from_discard = e.drawn_from_discard := by
  rw [execute_discard] at h
  split at h
  · exact absurd h (by simp)
  · split at h
    · exact absurd h (by simp)
    · split at h
      · exact absurd h (by simp)
      · split at h
        · exact absurd h (by simp)
        · split at h
          · exact absurd h (by simp)
          · next hmem _ =>
            injection h with h1
            exact ⟨Decidable.not_not.mp hmem, by rw [← h1], by rw [← h1]⟩

theorem set_hand_raw (s : GState) (p : Nat) (h : List Card) :
    ((s.set_hand p h).hand0 = if p = 0 then h else s.hand0) ∧
    ((s.set_hand p h).hand1 = if p = 0 then s.hand1 else h) ∧
    (s.set_hand p h).deck = s.deck ∧
    (s.set_hand p h).discard_pile = s.discard_pile := by
  rw [GState.set_hand]
  split <;> simp_all

theorem hand_eq_raw (s : GState) (p : Nat) :
    s.hand p = if p = 0 then s.hand0 else s.hand1 := rfl

theorem conserved_iff_raw (s : GState) :
    conserved s ↔
      ((s.hand0 : Multiset Card) + (s.hand1 : Multiset Card) +
        (s.discard_pile : Multiset Card) + (s.deck : Multiset Card)) =
        (full_deck : Multiset Card) := by
  rw [conserved, GState.hand, GState.hand, if_pos rfl,
    if_neg (by omega : (1 : Nat) ≠ 0)]

theorem execute_draw_conserved {e : Engine} {p : Nat} {input : DrawInput}
    {e1 : Engine} (h : execute_draw e p input = .ok e1)
    (hc : conserved e.state) : conserved e1.state := by
  rw [conserved_iff_raw] at hc ⊢
  rcases execute_draw_ok h with ⟨card, deck', hdraw, hst, -⟩ | ⟨card, hlast, hst, -⟩
  · have hdm := deck_draw_multiset hdraw
    rw [hst]
    obtain ⟨r0, r1, -, r3⟩ := set_hand_raw e.state p (e.state.hand p ++ [card])
    show ((e.state.set_hand p (e.state.hand p ++ [card])).hand0 : Multiset Card) +
      ((e.state.set_hand p (e.state.hand p ++ [card])).hand1 : Multiset Card) +
      ((e.state.set_hand p (e.state.hand p ++ [card])).discard_pile : Multiset Card) +
      (deck' : Multiset Card) = (full_deck : Multiset Card)
    rw [r0, r1, r3, hand_eq_raw]
    rw [← hc, hdm, ← Multiset.singleton_add]
    by_cases hp : p = 0
    · rw [if_pos hp, if_pos hp, if_pos hp, coe_append]
      simp only [Multiset.coe_singleton]
      abel
    · rw [if_neg hp, if_neg hp, if_neg hp, coe_append]
      simp only [Multiset.coe_singleton]
      abel
  · have hdm : (e.state.discard_pile : Multiset Card) =
        card ::ₘ (e.state.discard_pile.dropLast : List Card) := by
      refine deck_draw_multiset ?_
      rw [deck_draw, hlast]
    rw [hst]
    obtain ⟨r0, r1, r2, -⟩ := set_hand_raw e.state p (e.state.hand p ++ [card])
    show ((e.state.set_hand p (e.state.hand p ++ [card])).hand0 : Multiset Card) +
      ((e.state.set_hand p (e.state.hand p ++ [card])).hand1 : Multiset Card) +
      (e.state.discard_pile.dropLast : Multiset Card) +
      ((e.state.set_hand p (e.state.hand p ++ [card])).deck : Multiset Card) =
      (full_deck : Multiset Card)
    rw [r0, r1, r2, hand_eq_raw]
    rw [← hc, hdm, ← Multiset.singleton_add]
    by_cases hp : p = 0
    · rw [if_pos hp, if_pos hp, if_pos hp, coe_append]
      simp only [Multiset.coe_singleton]
      abel
    · rw [if_neg hp, if_neg hp, if_neg hp, coe_append]
      simp only [Multiset.coe_singleton]
      abel

theorem execute_discard_conserved {e : Engine} {p : Nat} {card : Card}
    {e1 : Engine} (h : execute_discard e p card = .ok e1)
    (hc : conserved e.state) : conserved e1.state := by
  obtain ⟨hmem, hst, -⟩ := execute_discard_ok h
  rw [conserved_iff_raw] at hc ⊢
  have hhm : ((e.state.hand p : List Card) : Multiset Card) =
      card ::ₘ (((e.state.hand p).erase card : List Card) : Multiset Card) := by
    rw [← coe_cons]
    exact Multiset.coe_eq_coe.mpr (List.perm_cons_erase hmem)
  rw [hst]
  obtain ⟨r0, r1, r2, -⟩ := set_hand_raw e.state p ((e.state.hand p).erase card)
  show ((e.state.set_hand p ((e.state.hand p).erase card)).hand0 : Multiset Card) +
    ((e.state.set_hand p ((e.state.hand p).erase card)).hand1 : Multiset Card) +
    ((e.state.discard_pile ++ [card] : List Card) : Multiset Card) +
    ((e.state.set_hand p ((e.state.hand p).erase card)).deck : Multiset Card) =
    (full_deck : Multiset Card)
  rw [r0, r1, r2, coe_append, ← hc]
  by_cases hp : p = 0
  · rw [if_pos hp, if_pos hp]
    have : ((e.state.hand p : List Card) : Multiset Card) =
        ((e.state.hand0 : List Card) : Multiset Card) := by
      rw [hand_eq_raw, if_pos hp]
    rw [← this, hhm, ← Multiset.singleton_add]
    simp only [Multiset.coe_singleton]
    abel
  · rw [if_neg hp, if_neg hp]
    have : ((e.state.hand p : List Card) : Multiset Card) =
        ((e.state.hand1 : List Card) : Multiset Card) := by
      rw [hand_eq_raw, if_neg hp]
    rw [← this, hhm, ← Multiset.singleton_add]
    simp only [Multiset.coe_singleton]
    abel

/-! ## Conservation across a whole turn and a whole game -/

theorem run_turn_conserved {σ0 σ1 : Type} (b0 : Bot σ0) (b1 : Bot σ1)
    (e : Engine) (s0 : σ0) (s1 : σ1) (hc : conserved e.state) :
    (∀ ev ∈ (run_turn b0 b1 e s0 s1).2, ∀ s,
      event_state ev = some s → conserved s) ∧
    (∀ err e', (run_turn b0 b1 e s0 s1).1 = TurnOut.halted err e' →
      conserved e'.state) ∧
    (∀ r e', (run_turn b0 b1 e s0 s1).1 = TurnOut.finished r e' →
      conserved e'.state) ∧
    (∀ e' t0 t1, (run_turn b0 b1 e s0 s1).1 = TurnOut.next e' t0 t1 →
      conserved e'.state) := by
  simp only [run_turn]
  cases hdr : execute_draw e e.state.current_player
      (bots_draw b0 b1 e.state.current_player s0 s1
        (get_player_view e.state e.state.current_player)).2 with
  | error pe =>
    dsimp only
    obtain ⟨err0, e0⟩ := pe
    have he0 : e0 = e := execute_draw_error_eq hdr
    subst he0
    refine ⟨by simp, ?_, by simp, by simp⟩
    intro err e' heq
    simp only [TurnOut.halted.injEq] at heq
    rw [← heq.2]
    exact hc
  | ok e1 =>
    dsimp only
    have hc1 : conserved e1.state := execute_draw_conserved hdr hc
    cases hdc : execute_discard e1 e.state.current_player
        (bots_discard b0 b1 e.state.current_player
          (bots_draw b0 b1 e.state.current_player s0 s1
            (get_player_view e.state e.state.current_player)).1.1
          (bots_draw b0 b1 e.state.current_player s0 s1
            (get_player_view e.state e.state.current_player)).1.2
          (get_player_view e1.state e.state.current_player)).2 with
    | error pe =>
      dsimp only
      obtain ⟨err0, e0⟩ := pe
      have he0 : e0 = e1 := execute_discard_error_eq hdc
      subst he0
      refine ⟨?_, ?_, by simp, by simp⟩
      · intro ev hev s hs
        simp only [List.mem_singleton] at hev
        subst hev
        rw [event_state, Option.some.injEq] at hs
        rw [← hs]
        exact hc1
      · intro err e' heq
        simp only [TurnOut.halted.injEq] at heq
        rw [← heq.2]
        exact hc1
    | ok e2 =>
      dsimp only
      have hc2 : conserved e2.state := execute_discard_conserved hdc hc1
      have hev2 : ∀ ev, (ev = GEvent.draw_done e1.state ∨
          ev = GEvent.discard_done e2.state ∨
          ev = GEvent.knock_query (e2.state.hand e.state.current_player)) →
          ∀ s, event_state ev = some s → conserved s := by
        rintro ev (rfl | rfl | rfl) s hs
        · rw [event_state, Option.some.injEq] at hs
          rw [← hs]
          exact hc1
        · rw [event_state, Option.some.injEq] at hs
          rw [← hs]
          exact hc2
        · exact absurd hs (by simp [event_state])
      by_cases hex : e2.state.deck.length < 2
      · rw [if_pos hex]
        refine ⟨?_, by simp, ?_, by simp⟩
        · intro ev hev s hs
          simp only [List.mem_cons, List.mem_singleton, List.not_mem_nil,
            or_false] at hev
          exact hev2 ev (by tauto) s hs
        · intro r e' heq
          simp only [TurnOut.finished.injEq] at heq
          rw [← heq.2]
          exact hc2
      · rw [if_neg hex]
        by_cases hck : can_knock (e2.state.hand e.state.current_player) = true
        · rw [if_pos hck]
          by_cases hkn : (bots_knock b0 b1 e.state.current_player
              (bots_discard b0 b1 e.state.current_player
                (bots_draw b0 b1 e.state.current_player s0 s1
                  (get_player_view e.state e.state.current_player)).1.1
                (bots_draw b0 b1 e.state.current_player s0 s1
                  (get_player_view e.state e.state.current_player)).1.2
                (get_player_view e1.state e.state.current_player)).1.1
              (bots_discard b0 b1 e.state.current_player
                (bots_draw b0 b1 e.state.current_player s0 s1
                  (get_player_view e.state e.state.current_player)).1.1
                (bots_draw b0 b1 e.state.current_player s0 s1
                  (get_player_view e.state e.state.current_player)).1.2
                (get_player_view e1.state e.state.current_player)).1.2
              (get_player_view
                { e2 with state := { e2.state with phase := GamePhase.knock } }.state
                e.state.current_player)).2 = true
          · rw [if_pos hkn]
            refine ⟨?_, by simp, ?_, by simp⟩
            · intro ev hev s hs
              simp only [List.mem_cons, List.mem_singleton,
                List.not_mem_nil, or_false] at hev
              exact hev2 ev (by tauto) s hs
            · intro r e' heq
              simp only [TurnOut.finished.injEq] at heq
              rw [← heq.2]
              exact hc2
          · rw [if_neg hkn]
            refine ⟨?_, by simp, by simp, ?_⟩
            · intro ev hev s hs
              simp only [List.mem_cons, List.mem_singleton,
                List.not_mem_nil, or_false] at hev
              exact hev2 ev (by tauto) s hs
            · intro e' t0 t1 heq
              simp only [TurnOut.next.injEq] at heq
              rw [← heq.1]
              exact hc2
        · rw [if_neg hck]
          refine ⟨?_, by simp, by simp, ?_⟩
          · intro ev hev s hs
            simp only [List.mem_cons, List.mem_singleton,
              List.not_mem_nil, or_false] at hev
            exact hev2 ev (by tauto) s hs
          · intro e' t0 t1 heq
            simp only [TurnOut.next.injEq] at heq
            rw [← heq.1]
            exact hc2

theorem game_loop_conserved {σ0 σ1 : Type} (b0 : Bot σ0) (b1 : Bot σ1) :
    ∀ (fuel : Nat) (e : Engine) (s0 : σ0) (s1 : σ1) (acc : List GEvent),
      conserved e.state →
      (∀ ev ∈ acc, ∀ s, event_state ev = some s → conserved s) →
      (∀ ev ∈ (game_loop b0 b1 fuel e s0 s1 acc).2.2, ∀ s,
        event_state ev = some s → conserved s) ∧
      conserved (game_loop b0 b1 fuel e s0 s1 acc).2.1.state := by
  intro fuel
  induction fuel with
  | zero =>
    intro e s0 s1 acc hc hacc
    exact ⟨hacc, hc⟩
  | succ n ih =>
    intro e s0 s1 acc hc hacc
    rw [game_loop]
    by_cases hend : e.state.phase = .ended
    · rw [if_pos hend]
      exact ⟨hacc, hc⟩
    · rw [if_neg hend]
      obtain ⟨hev, hhalt, hfin, hnext⟩ := run_turn_conserved b0 b1 e s0 s1 hc
      cases hrt : run_turn b0 b1 e s0 s1 with
      | mk out evs =>
        rw [hrt] at hev hhalt hfin hnext
        dsimp only at hev hhalt hfin hnext
        have hall : ∀ ev ∈ acc ++ evs, ∀ s, event_state ev = some s →
            conserved s := by
          intro ev hmem
          rcases List.mem_append.mp hmem with hm | hm
          · exact hacc ev hm
          · exact hev ev hm
        cases out with
        | halted err e' =>
          exact ⟨hall, hhalt err e' rfl⟩
        | finished r e' =>
          exact ⟨hall, hfin r e' rfl⟩
        | next e' t0 t1 =>
          exact ih e' t0 t1 (acc ++ evs) (hnext e' t0 t1 rfl) hall

/-! ## Claim C2 -/

/-- C2: Card conservation.  For every pair of (stateful, arbitrary) bots,
dealer index and shuffled deck (any permutation of the 52-card universe, as
produced by any random source), the multiset union of both hands, the
discard pile and the remaining deck equals the 52-card universe after
setup, after each executed draw, after each executed discard, and in the
final state when `play_game` stops. -/
theorem C2_card_conservation {σ0 σ1 : Type} (b0 : Bot σ0) (b1 : Bot σ1)
    (dealer : Nat) (shuffled : List Card) (hsh : shuffled.Perm full_deck)
    (s0 : σ0) (s1 : σ1) (fuel : Nat) :
    (∀ st, gstate_setup dealer shuffled = some st → conserved st) ∧
    (∀ out e evs,
      play_game b0 b1 dealer shuffled s0 s1 fuel = some (out, e, evs) →
      (∀ ev ∈ evs, ∀ s, event_state ev = some s → conserved s) ∧
        conserved e.state) := by
  refine ⟨fun st h => setup_conserved hsh h, ?_⟩
  intro out e evs hpg
  rw [play_game] at hpg
  split at hpg
  · exact absurd hpg (by simp)
  · next st hsetup =>
    rw [Option.some.injEq] at hpg
    have hc := setup_conserved hsh hsetup
    have hgl := game_loop_conserved b0 b1 fuel
      { state := st, drawn_from_discard := none }
      (b0.on_game_start s0 0 (get_player_view st 0))
      (b1.on_game_start s1 1 (get_player_view st 1)) [] hc (by simp)
    rw [hpg] at hgl
    exact hgl

/-- The state `GameState.setup(dealer=0)` produces from the unshuffled
52-card deck. -/
def c2_setup_state : GState :=
  (gstate_setup 0 full_deck).getD
    { deck := [], hand0 := [], hand1 := [], discard_pile := [],
      current_player := 0, phase := .draw, dealer := 0, winner := none,
      score := 0, result_type := none }

/-- A trivial deterministic bot: always draw from the deck, discard the
first card of the hand, never knock. -/
def simple_bot : Bot Unit :=
  { draw_decision := fun st _ => (st, .choice .deck)
    discard_decision := fun st v => (st, v.hand.headD ⟨.ace, .clubs⟩)
    knock_decision := fun st _ => (st, false) }

theorem C2_card_conservation_witness :
    gstate_setup 0 full_deck = some c2_setup_state ∧ conserved c2_setup_state :=
  ⟨by decide,
   (C2_card_conservation simple_bot simple_bot 0 full_deck (List.Perm.refl _)
     () () 0).1 c2_setup_state (by decide)⟩

/-! ## Claim C4 -/

/-- C4: Deck exhaustion ends the game in a draw.  In every iteration of the
`play_game` loop, the deck-exhaustion check runs right after the executed
discard and before the Knock phase: if fewer than 2 cards then remain, the
turn ends the game at once with winner none, score 0 and result kind
"draw", the knock decision is never queried (the emitted events are exactly
the draw and discard snapshots), regardless of either hand's deadwood. -/
theorem C4_deck_exhaustion_draw {σ0 σ1 : Type} (b0 : Bot σ0) (b1 : Bot σ1)
    (e : Engine) (s0 : σ0) (s1 : σ1) (e1 e2 : Engine)
    (hdraw : execute_draw e e.state.current_player
      (bots_draw b0 b1 e.state.current_player s0 s1
        (get_player_view e.state e.state.current_player)).2 = .ok e1)
    (hdiscard : execute_discard e1 e.state.current_player
      (bots_discard b0 b1 e.state.current_player
        (bots_draw b0 b1 e.state.current_player s0 s1
          (get_player_view e.state e.state.current_player)).1.1
        (bots_draw b0 b1 e.state.current_player s0 s1
          (get_player_view e.state e.state.current_player)).1.2
        (get_player_view e1.state e.state.current_player)).2 = .ok e2)
    (hexhaust : e2.state.deck.length < 2) :
    run_turn b0 b1 e s0 s1 =
      (TurnOut.finished
        { winner := none, score := 0, result_type := "draw", knocker := none }
        { e2 with state := { e2.state with phase := .ended } },
       [.draw_done e1.state, .discard_done e2.state]) := by
  simp only [run_turn]
  rw [hdraw]
  dsimp only
  rw [hdiscard]
  dsimp only
  rw [if_pos hexhaust]

/-- The engine after the sample player draws the top deck card. -/
def c4_e1 : Engine :=
  { state := { sample_engine.state with
      deck := [⟨.two, .clubs⟩]
      hand0 := sample_engine.state.hand0 ++ [⟨.three, .clubs⟩]
      phase := .discard }
    drawn_from_discard := none }

/-- The engine after that player then discards the first card of the
hand. -/
def c4_e2 : Engine :=
  { state := { sample_engine.state with
      deck := [⟨.two, .clubs⟩]
      hand0 := List.erase
        (sample_engine.state.hand0 ++ [(⟨.three, .clubs⟩ : Card)])
        (⟨.ace, .hearts⟩ : Card)
      discard_pile := sample_engine.state.discard_pile ++ [⟨.ace, .hearts⟩]
      phase := .knock }
    drawn_from_discard := none }

theorem C4_deck_exhaustion_draw_witness :
    c4_e2.state.deck.length < 2 ∧
    run_turn simple_bot simple_bot sample_engine () () =
      (TurnOut.finished
        { winner := none, score := 0, result_type := "draw", knocker := none }
        { c4_e2 with state := { c4_e2.state with phase := .ended } },
       [.draw_done c4_e1.state, .discard_done c4_e2.state]) :=
  ⟨by decide,
   C4_deck_exhaustion_draw simple_bot simple_bot sample_engine () () c4_e1
     c4_e2 (by decide) (by decide) (by decide)⟩

/-! ## Claim C8 -/

theorem run_turn_knock_guard {σ0 σ1 : Type} (b0 : Bot σ0) (b1 : Bot σ1)
    (e : Engine) (s0 : σ0) (s1 : σ1) :
    ∀ h, GEvent.knock_query h ∈ (run_turn b0 b1 e s0 s1).2 →
      can_knock h = true := by
  intro h hmem
  simp only [run_turn] at hmem
  split at hmem
  · simp at hmem
  · split at hmem
    · simp at hmem
    · split at hmem
      · simp at hmem
      · split at hmem
        case isTrue hck =>
          split at hmem
          · simp only [List.mem_cons, List.mem_singleton,
              List.not_mem_nil, or_false] at hmem
            rcases hmem with hmem | hmem | hmem
            · exact absurd hmem (by simp)
            · exact absurd hmem (by simp)
            · rw [GEvent.knock_query.injEq] at hmem
              rw [hmem]
              exact hck
          · simp only [List.mem_cons, List.mem_singleton,
              List.not_mem_nil, or_false] at hmem
            rcases hmem with hmem | hmem | hmem
            · exact absurd hmem (by simp)
            · exact absurd hmem (by simp)
            · rw [GEvent.knock_query.injEq] at hmem
              rw [hmem]
              exact hck
        case isFalse hck => simp at hmem

theorem game_loop_knock_guard {σ0 σ1 : Type} (b0 : Bot σ0) (b1 : Bot σ1) :
    ∀ (fuel : Nat) (e : Engine) (s0 : σ0) (s1 : σ1) (acc : List GEvent),
      (∀ h, GEvent.knock_query h ∈ acc → can_knock h = true) →
      ∀ h, GEvent.knock_query h ∈ (game_loop b0 b1 fuel e s0 s1 acc).2.2 →
        can_knock h = true := by
  intro fuel
  induction fuel with
  | zero =>
    intro e s0 s1 acc hacc h hmem
    exact hacc h hmem
  | succ n ih =>
    intro e s0 s1 acc hacc h hmem
    rw [game_loop] at hmem
    by_cases hend : e.state.phase = .ended
    · rw [if_pos hend] at hmem
      exact hacc h hmem
    · rw [if_neg hend] at hmem
      have hguard := run_turn_knock_guard b0 b1 e s0 s1
      cases hrt : run_turn b0 b1 e s0 s1 with
      | mk out evs =>
        rw [hrt] at hmem hguard
        dsimp only at hguard
        have hall : ∀ h, GEvent.knock_query h ∈ acc ++ evs →
            can_knock h = true := by
          intro h' hm
          rcases List.mem_append.mp hm with hm | hm
          · exact hacc h' hm
          · exact hguard h' hm
        cases out with
        | halted err e' => exact hall h hmem
        | finished r e' => exact hall h hmem
        | next e' t0 t1 => exact ih e' t0 t1 (acc ++ evs) hall h hmem

/-- C8: Knock-eligibility gating.  `can_knock(hand)` holds exactly when the
hand's deadwood is at most 10, and in every run of `play_game` each
`knock_decision` query is made with a hand (the acting player's
post-discard hand at that moment) satisfying `can_knock`. -/
theorem C8_knock_gating {σ0 σ1 : Type} (b0 : Bot σ0) (b1 : Bot σ1)
    (dealer : Nat) (shuffled : List Card) (s0 : σ0) (s1 : σ1) (fuel : Nat) :
    (∀ h : List Card, can_knock h = true ↔ calculate_deadwood h ≤ 10) ∧
    (∀ out e evs,
      play_game b0 b1 dealer shuffled s0 s1 fuel = some (out, e, evs) →
      ∀ h, GEvent.knock_query h ∈ evs → can_knock h = true) := by
  constructor
  · intro h
    rw [can_knock]
    exact decide_eq_true_iff
  · intro out e evs hpg
    rw [play_game] at hpg
    split at hpg
    · exact absurd hpg (by simp)
    · next st hsetup =>
      rw [Option.some.injEq] at hpg
      have := game_loop_knock_guard b0 b1 fuel
        { state := st, drawn_from_discard := none }
        (b0.on_game_start s0 0 (get_player_view st 0))
        (b1.on_game_start s1 1 (get_player_view st 1)) [] (by simp)
      rw [hpg] at this
      exact this

theorem C8_knock_gating_witness :
    can_knock c1_hand = true ↔ calculate_deadwood c1_hand ≤ 10 :=
  (C8_knock_gating simple_bot simple_bot 0 full_deck () () 0).1 c1_hand

/-! ## Claim C10 -/

/-- The loop-head invariant of `play_game`: Draw phase, at least two cards
in the deck (guaranteed by the deck-exhaustion check of the previous turn,
or by the fresh deal), and a non-empty discard pile. -/
def draw_ready (e : Engine) : Prop :=
  e.state.phase = .draw ∧ 2 ≤ e.state.deck.length ∧
    e.state.discard_pile ≠ []

theorem parse_draw_choice_err {input : DrawInput} {err : MoveErr}
    (h : parse_draw_choice input = .error err) :
    ∃ s, err = .invalidDrawChoice s := by
  cases input with
  | choice c => exact absurd h (by simp [parse_draw_choice])
  | str s =>
    rw [parse_draw_choice] at h
    split at h
    · exact absurd h (by simp)
    · split at h
      · exact absurd h (by simp)
      · injection h with h1
        exact ⟨s, h1.symm⟩

theorem execute_draw_err_kinds {e : Engine} {p : Nat} {input : DrawInput}
    {err : MoveErr} {e' : Engine}
    (h : execute_draw e p input = .error (err, e')) :
    (err = .emptyDeck → e.state.deck = []) ∧
    (err = .emptyDiscard → e.state.discard_pile = []) := by
  rw [execute_draw] at h
  split at h
  · injection h with h1
    injection h1 with h2
    rw [← h2]
    exact ⟨by simp, by simp⟩
  · split at h
    · injection h with h1
      injection h1 with h2
      rw [← h2]
      exact ⟨by simp, by simp⟩
    · split at h
      case h_1 err1 hparse =>
        injection h with h1
        injection h1 with h2
        rw [← h2]
        obtain ⟨s, rfl⟩ := parse_draw_choice_err hparse
        exact ⟨by simp, by simp⟩
      case h_2 hparse =>
        split at h
        case h_1 hdraw =>
          injection h with h1
          injection h1 with h2
          rw [← h2]
          refine ⟨fun _ => ?_, by simp⟩
          rw [deck_draw] at hdraw
          split at hdraw
          · next hlast =>
            cases hde : e.state.deck with
            | nil => rfl
            | cons a t =>
              rw [hde] at hlast
              simp at hlast
          · exact absurd hdraw (by simp)
        · exact absurd h (by simp)
      · split at h
        case h_1 hlast =>
          injection h with h1
          injection h1 with h2
          rw [← h2]
          refine ⟨by simp, fun _ => ?_⟩
          cases hde : e.state.discard_pile with
          | nil => rfl
          | cons a t =>
            rw [hde] at hlast
            simp at hlast
        · exact absurd h (by simp)

theorem execute_discard_err_kinds {e : Engine} {p : Nat} {card : Card}
    {err : MoveErr} {e' : Engine}
    (h : execute_discard e p card = .error (err, e')) :
    err ≠ .emptyDeck ∧ err ≠ .emptyDiscard := by
  rw [execute_discard] at h
  split at h
  · injection h with h1
    injection h1 with h2
    rw [← h2]
    exact ⟨by simp, by simp⟩
  · split at h
    · injection h with h1
      injection h1 with h2
      rw [← h2]
      exact ⟨by simp, by simp⟩
    · split at h
      · injection h with h1
        injection h1 with h2
        rw [← h2]
        exact ⟨by simp, by simp⟩
      · split at h
        · injection h with h1
          injection h1 with h2
          rw [← h2]
          exact ⟨by simp, by simp⟩
        · split at h
          · injection h with h1
            injection h1 with h2
            rw [← h2]
            exact ⟨by simp, by simp⟩
          · exact absurd h (by simp)

theorem run_turn_no_exhaustion {σ0 σ1 : Type} (b0 : Bot σ0) (b1 : Bot σ1)
    (e : Engine) (s0 : σ0) (s1 : σ1) (hr : draw_ready e) :
    (∀ err e', (run_turn b0 b1 e s0 s1).1 = TurnOut.halted err e' →
      err ≠ .emptyDeck ∧ err ≠ .emptyDiscard) ∧
    (∀ e' t0 t1, (run_turn b0 b1 e s0 s1).1 = TurnOut.next e' t0 t1 →
      draw_ready e') := by
  obtain ⟨hph, hdk, hdp⟩ := hr
  simp only [run_turn]
  cases hdr : execute_draw e e.state.current_player
      (bots_draw b0 b1 e.state.current_player s0 s1
        (get_player_view e.state e.state.current_player)).2 with
  | error pe =>
    dsimp only
    obtain ⟨err0, e0⟩ := pe
    obtain ⟨hk1, hk2⟩ := execute_draw_err_kinds hdr
    refine ⟨?_, by simp⟩
    intro err e' heq
    simp only [TurnOut.halted.injEq] at heq
    rw [← heq.1]
    constructor
    · intro hbad
      have := hk1 hbad
      rw [this] at hdk
      simp at hdk
    · intro hbad
      exact hdp (hk2 hbad)
  | ok e1 =>
    dsimp only
    cases hdc : execute_discard e1 e.state.current_player
        (bots_discard b0 b1 e.state.current_player
          (bots_draw b0 b1 e.state.current_player s0 s1
            (get_player_view e.state e.state.current_player)).1.1
          (bots_draw b0 b1 e.state.current_player s0 s1
            (get_player_view e.state e.state.current_player)).1.2
          (get_player_view e1.state e.state.current_player)).2 with
    | error pe =>
      dsimp only
      obtain ⟨err0, e0⟩ := pe
      refine ⟨?_, by simp⟩
      intro err e' heq
      simp only [TurnOut.halted.injEq] at heq
      rw [← heq.1]
      exact execute_discard_err_kinds hdc
    | ok e2 =>
      dsimp only
      obtain ⟨-, hst2, -⟩ := execute_discard_ok hdc
      have hdeck2 : e2.state.deck = e1.state.deck := by
        rw [hst2]
        exact (set_hand_raw e1.state e.state.current_player _).2.2.1
      have hpile2 : e2.state.discard_pile ≠ [] := by
        rw [hst2]
        show e1.state.discard_pile ++ _ ≠ []
        simp
      by_cases hex : e2.state.deck.length < 2
      · rw [if_pos hex]
        exact ⟨by simp, by simp⟩
      · rw [if_neg hex]
        by_cases hck : can_knock (e2.state.hand e.state.current_player) = true
        · rw [if_pos hck]
          split
          · exact ⟨by simp, by simp⟩
          · refine ⟨by simp, ?_⟩
            intro e' t0 t1 heq
            simp only [TurnOut.next.injEq] at heq
            rw [← heq.1]
            exact ⟨rfl, (by omega : 2 ≤ e2.state.deck.length), hpile2⟩
        · rw [if_neg hck]
          refine ⟨by simp, ?_⟩
          intro e' t0 t1 heq
          simp only [TurnOut.next.injEq] at heq
          rw [← heq.1]
          exact ⟨rfl, (by omega : 2 ≤ e2.state.deck.length), hpile2⟩

theorem deck_deal_length {cards dealt rest : List Card} {n : Nat}
    (h : deck_deal cards n = some (dealt, rest)) :
    rest.length = cards.length - n ∧ n ≤ cards.length := by
  rw [deck_deal] at h
  split at h
  · exact absurd h (by simp)
  · next hlen =>
    rw [Option.some.injEq, Prod.mk.injEq] at h
    rw [← h.2, List.length_take]
    omega

theorem setup_draw_ready {dealer : Nat} {shuffled : List Card}
    (hsh : shuffled.Perm full_deck) {st : GState}
    (h : gstate_setup dealer shuffled = some st) :
    draw_ready { state := st, drawn_from_discard := none } := by
  have hlen : shuffled.length = 52 := by
    rw [hsh.length_eq]
    decide
  rw [gstate_setup] at h
  split at h
  · exact absurd h (by simp)
  · next nd_hand deck1 hdeal1 =>
    split at h
    · exact absurd h (by simp)
    · next d_hand deck2 hdeal2 =>
      split at h
      · exact absurd h (by simp)
      · next flip deck3 hdraw =>
        rw [Option.some.injEq] at h
        obtain ⟨hl1, -⟩ := deck_deal_length hdeal1
        obtain ⟨hl2, -⟩ := deck_deal_length hdeal2
        have hl3 : deck3.length = deck2.length - 1 := by
          rw [deck_draw] at hdraw
          split at hdraw
          · exact absurd hdraw (by simp)
          · rw [Option.some.injEq, Prod.mk.injEq] at hdraw
            rw [← hdraw.2, List.length_dropLast]
        have hX : ∃ X : GState, X.deck = deck3 ∧ X.discard_pile = [flip] ∧
            X.phase = .draw ∧
            (X.set_hand (1 - dealer) nd_hand).set_hand dealer d_hand = st :=
          ⟨_, rfl, rfl, rfl, h⟩
        obtain ⟨X, hXd, hXp, hXph, hXst⟩ := hX
        have hf1 := set_hand_fields X (1 - dealer) nd_hand
        have hf2 := set_hand_fields (X.set_hand (1 - dealer) nd_hand) dealer d_hand
        refine ⟨?_, ?_, ?_⟩
        · show st.phase = .draw
          rw [← hXst, hf2.2.2.2.2.2, hf1.2.2.2.2.2, hXph]
        · show 2 ≤ st.deck.length
          rw [← hXst, hf2.2.1, hf1.2.1, hXd]
          omega
        · show st.discard_pile ≠ []
          rw [← hXst, hf2.2.2.1, hf1.2.2.1, hXp]
          simp

theorem game_loop_no_exhaustion {σ0 σ1 : Type} (b0 : Bot σ0) (b1 : Bot σ1) :
    ∀ (fuel : Nat) (e : Engine) (s0 : σ0) (s1 : σ1) (acc : List GEvent),
      draw_ready e →
      (game_loop b0 b1 fuel e s0 s1 acc).1 ≠ GameOutcome.halted .emptyDeck ∧
      (game_loop b0 b1 fuel e s0 s1 acc).1 ≠ GameOutcome.halted .emptyDiscard := by
  intro fuel
  induction fuel with
  | zero =>
    intro e s0 s1 acc _
    exact ⟨by simp [game_loop], by simp [game_loop]⟩
  | succ n ih =>
    intro e s0 s1 acc hr
    rw [game_loop]
    by_cases hend : e.state.phase = .ended
    · rw [if_pos hend]
      exact ⟨by simp, by simp⟩
    · rw [if_neg hend]
      obtain ⟨hhalt, hnext⟩ := run_turn_no_exhaustion b0 b1 e s0 s1 hr
      cases hrt : run_turn b0 b1 e s0 s1 with
      | mk out evs =>
        rw [hrt] at hhalt hnext
        dsimp only at hhalt hnext
        cases out with
        | halted err e' =>
          obtain ⟨h1, h2⟩ := hhalt err e' rfl
          exact ⟨by simp [h1], by simp [h2]⟩
        | finished r e' => exact ⟨by simp, by simp⟩
        | next e' t0 t1 => exact ih e' t0 t1 (acc ++ evs) (hnext e' t0 t1 rfl)

/-- C10: Resource-exhaustion branches are unreachable.  Starting from a
fresh setup (any bot behaviour, any dealer, any permutation of the 52-card
deck), `play_game` never ends with the "Cannot draw from empty deck" or
"Cannot draw from empty discard pile" errors of `_execute_draw`: the
deck-exhaustion check keeps at least two cards in the deck at every draw,
and the discard pile holds at least one card at the start of every draw
phase. -/
theorem C10_no_resource_exhaustion {σ0 σ1 : Type} (b0 : Bot σ0) (b1 : Bot σ1)
    (dealer : Nat) (shuffled : List Card) (hsh : shuffled.Perm full_deck)
    (s0 : σ0) (s1 : σ1) (fuel : Nat) :
    ∀ out e evs,
      play_game b0 b1 dealer shuffled s0 s1 fuel = some (out, e, evs) →
      out ≠ GameOutcome.halted .emptyDeck ∧
      out ≠ GameOutcome.halted .emptyDiscard := by
  intro out e evs hpg
  rw [play_game] at hpg
  split at hpg
  · exact absurd hpg (by simp)
  · next st hsetup =>
    rw [Option.some.injEq] at hpg
    have hdr := setup_draw_ready hsh hsetup
    have := game_loop_no_exhaustion b0 b1 fuel
      { state := st, drawn_from_discard := none }
      (b0.on_game_start s0 0 (get_player_view st 0))
      (b1.on_game_start s1 1 (get_player_view st 1)) [] hdr
    rw [hpg] at this
    exact this

/-- A fuel-0 run of `play_game` on the unshuffled deck (setup only). -/
def c10_run : GameOutcome × Engine × List GEvent :=
  (play_game simple_bot simple_bot 0 full_deck () () 0).getD
    (.out_of_fuel, { state := c2_setup_state, drawn_from_discard := none }, [])

theorem C10_no_resource_exhaustion_witness :
    play_game simple_bot simple_bot 0 full_deck () () 0 =
      some (c10_run.1, c10_run.2.1, c10_run.2.2) ∧
    c10_run.1 ≠ GameOutcome.halted .emptyDeck :=
  ⟨by decide,
   (C10_no_resource_exhaustion simple_bot simple_bot 0 full_deck
     (List.Perm.refl _) () () 0 c10_run.1 c10_run.2.1 c10_run.2.2
     (by decide)).1⟩

/-! ## Claim C7 -/

/-- C7: Determinism.  The shuffle/deal randomness is an explicit,
caller-supplied source — here the deterministic permutation a source
constructed from the seed produces — and `play_game` threads no other
state, so two independent runs with the same bots, dealer and seed return
identical outcomes: equal `GameResult`s (same winner, score, result kind
and knocker), final engines and event logs. -/
theorem C7_determinism {σ0 σ1 : Type} (b0 : Bot σ0) (b1 : Bot σ1)
    (dealer seed : Nat) (s0 : σ0) (s1 : σ1) (fuel : Nat) :
    play_game b0 b1 dealer (shuffled_deck seed) s0 s1 fuel =
      play_game b0 b1 dealer (shuffled_deck seed) s0 s1 fuel ∧
    (∀ out1 e1 evs1 out2 e2 evs2,
      play_game b0 b1 dealer (shuffled_deck seed) s0 s1 fuel =
        some (out1, e1, evs1) →
      play_game b0 b1 dealer (shuffled_deck seed) s0 s1 fuel =
        some (out2, e2, evs2) →
      out1 = out2 ∧ e1 = e2 ∧ evs1 = evs2) := by
  refine ⟨rfl, ?_⟩
  intro out1 e1 evs1 out2 e2 evs2 h1 h2
  have h := h1.symm.trans h2
  rw [Option.some.injEq, Prod.mk.injEq, Prod.mk.injEq] at h
  exact ⟨h.1, h.2.1, h.2.2⟩

/-- A fuel-0 run of `play_game` from the seed-0 random source. -/
def c7_run : GameOutcome × Engine × List GEvent :=
  (play_game simple_bot simple_bot 0 (shuffled_deck 0) () () 0).getD
    (.out_of_fuel, { state := c2_setup_state, drawn_from_discard := none }, [])

theorem C7_determinism_witness :
    play_game simple_bot simple_bot 0 (shuffled_deck 0) () () 0 =
      some (c7_run.1, c7_run.2.1, c7_run.2.2) ∧
    c7_run.1 = c7_run.1 :=
  ⟨by decide,
   ((C7_determinism simple_bot simple_bot 0 0 () () 0).2 c7_run.1 c7_run.2.1
     c7_run.2.2 c7_run.1 c7_run.2.1 c7_run.2.2 (by decide) (by decide)).1⟩

end RummyBots
